import Mathlib

/-!
Verification of the Schema Synchronization Engine of the event-modeling app.

The embedding follows the current source: the synchronization controller in
`src/state/schemaState.tsx` (blockId/blockEntityType based change plans) and the
AST utilities in `src/graphql-ast-utils.ts`.  GraphQL trees (`ParserTree`,
`ParserField` of graphql-js-tree) are embedded shallowly: a type definition node
carries a name, a kind, a field list and a directive list; a directive carries
named arguments whose raw literal text is kept verbatim (graphql-js-tree stores
that literal either in `value.value` or in the argument `fieldType` name — both
channels carry the same literal, modelled here as a single `value` field).

The SDL codec itself (`Parser.parse` / `TreeToGraphQL.parse` of graphql-js-tree)
and `toCamelCase` (`src/utils/stringUtils.ts`) are not part of the source
snapshot; they are modelled from the spec, as marked on their definitions.
-/

namespace EventModeling

/-- Field type of a GraphQL field: a base type name plus whether it carries the
non-null marker.  `getTypeName` of graphql-js-tree unwraps decorations down to
the base name. -/
structure FieldType where
  base : String
  required : Bool
deriving DecidableEq

/-- A field of a type definition (an entry of `node.args` in graphql-js-tree). -/
structure Field where
  name : String
  type : FieldType
deriving DecidableEq

/-- A directive argument: its name and the raw literal text of its value
(quotes included for string literals). -/
structure DirArg where
  name : String
  value : String
deriving DecidableEq

/-- A directive application on a type definition. -/
structure Directive where
  name : String
  args : List DirArg
deriving DecidableEq

/-- The `TypeDefinition` kinds the subsystem traffics in: object types, input
object types, and one non-target kind (scalar) for user content. -/
inductive TypeDefKind where
  | objectType
  | inputObjectType
  | scalarType
deriving DecidableEq

/-- A type definition node of the parsed AST (a top-level `ParserField`). -/
structure Node where
  name : String
  kind : TypeDefKind
  fields : List Field
  directives : List Directive
deriving DecidableEq

/-- The parsed AST (`ParserTree`). -/
structure ParserTree where
  nodes : List Node
deriving DecidableEq

/-- A block record consumed from the canvas: `{ id, title, type }` with
`type ∈ \x7bcommand, event, view\x7d` (src/types/schema.ts). -/
structure BlockInfo where
  id : String
  title : String
  type : String
deriving DecidableEq

/-! Constants of src/graphql-ast-utils.ts. -/

def NODEID_SUFFIX_INPUT : String := "-input"

def NODEID_SUFFIX_RESULT : String := "-result"

def EVENT_MODELING_BLOCK : String := "eventModelingBlock"

def ARG_NODE_ID : String := "nodeId"

def ARG_BLOCK_ID : String := "blockId"

def ARG_BLOCK_ENTITY_TYPE : String := "blockEntityType"

def BLOCK_ENTITY_BLOCK : String := "block"

def BLOCK_ENTITY_INPUT : String := "input"

def BLOCK_ENTITY_RESULT : String := "result"

/-! Identity directive codec (src/graphql-ast-utils.ts). -/

/-- Source `findDirectiveOnType`: first directive of the given name, if any. -/
def findDirectiveOnType (node : Node) (directiveName : String) : Option Directive :=
  node.directives.find? (fun d => d.name = directiveName)

/-- Source `getDirectiveArgumentValue`: the raw literal of the argument (the
source reads `value.value` and falls back to the `fieldType` name; both hold
the same literal, kept here in `value`). -/
def getDirectiveArgumentValue (arg : DirArg) : String :=
  arg.value

/-- JS `String.prototype.endsWith`, on the character sequence. -/
def strEndsWith (s suff : String) : Bool :=
  suff.data.isSuffixOf s.data

/-- JS `String.prototype.startsWith`, on the character sequence. -/
def strStartsWith (s pre : String) : Bool :=
  pre.data.isPrefixOf s.data

/-- JS `String.prototype.slice(n)`, on the character sequence. -/
def strDrop (s : String) (n : Nat) : String :=
  String.mk (s.data.drop n)

/-- JS `String.prototype.slice(0, -n)`, on the character sequence. -/
def strDropRight (s : String) (n : Nat) : String :=
  String.mk (s.data.take (s.data.length - n))

/-- Source `stripQuotes`: strip one pair of surrounding double quotes. -/
def stripQuotes (s : String) : String :=
  if 2 ≤ s.length ∧ strStartsWith s "\"" ∧ strEndsWith s "\"" then strDropRight (strDrop s 1) 1 else s

/-- Source `getDirectiveArg`: value of the named argument of a directive,
quotes stripped; empty string when the directive or argument is absent. -/
def getDirectiveArg (directive : Option Directive) (argName : String) : String :=
  match directive with
  | none => ""
  | some d =>
    match d.args.find? (fun a => a.name = argName) with
    | some a => stripQuotes (getDirectiveArgumentValue a)
    | none => ""

/-- Source `extractBaseNodeId`: strip a trailing `-input` or `-result`. -/
def extractBaseNodeId (nodeId : String) : String :=
  if strEndsWith nodeId NODEID_SUFFIX_INPUT then strDropRight nodeId NODEID_SUFFIX_INPUT.length
  else if strEndsWith nodeId NODEID_SUFFIX_RESULT then strDropRight nodeId NODEID_SUFFIX_RESULT.length
  else nodeId

/-- The decoded identity of a managed type: blockId and blockEntityType. -/
structure BlockKey where
  blockId : String
  blockEntityType : String
deriving DecidableEq

/-- Source `getBlockIdAndEntityTypeFromDirective`: explicit
`blockId`/`blockEntityType` arguments win when both are non-empty; otherwise
the legacy composite `nodeId` token is decoded by suffix stripping. -/
def getBlockIdAndEntityTypeFromDirective (directive : Option Directive) : BlockKey :=
  let blockId := getDirectiveArg directive ARG_BLOCK_ID
  let blockEntityType := getDirectiveArg directive ARG_BLOCK_ENTITY_TYPE
  if blockId ≠ "" ∧ blockEntityType ≠ "" then ⟨blockId, blockEntityType⟩
  else
    let nodeId := getDirectiveArg directive ARG_NODE_ID
    if nodeId = "" then ⟨"", ""⟩
    else if strEndsWith nodeId NODEID_SUFFIX_INPUT then ⟨extractBaseNodeId nodeId, BLOCK_ENTITY_INPUT⟩
    else if strEndsWith nodeId NODEID_SUFFIX_RESULT then ⟨extractBaseNodeId nodeId, BLOCK_ENTITY_RESULT⟩
    else ⟨extractBaseNodeId nodeId, BLOCK_ENTITY_BLOCK⟩

/-- Whether a node kind is one the sync engine targets (object or input
object type definitions). -/
def isTargetTypeKind (k : TypeDefKind) : Bool :=
  k = TypeDefKind.objectType ∨ k = TypeDefKind.inputObjectType

/-- The decoded identity of a node, through its `eventModelingBlock` directive. -/
def nodeBlockKey (node : Node) : BlockKey :=
  getBlockIdAndEntityTypeFromDirective (node.directives.find? (fun d => d.name = EVENT_MODELING_BLOCK))

/-- Source `findRelatedTypes`: object/input nodes whose decoded blockId equals
the given one. -/
def findRelatedTypes (ast : ParserTree) (baseBlockId : String) : List Node :=
  ast.nodes.filter (fun node => isTargetTypeKind node.kind && (nodeBlockKey node).blockId = baseBlockId)

/-- Source `addDirectiveToType`: drop directives sharing the new directive's
name, then append it. -/
def addDirectiveToType (node : Node) (directive : Directive) : Node :=
  { node with directives := (node.directives.filter (fun d => d.name ≠ directive.name)) ++ [directive] }

/-- graphql-js-tree `getTypeName`: base name of a field type. -/
def getTypeName (ft : FieldType) : String :=
  ft.base

/-- Source `updateFieldTypeReferences`: when the field's base type name equals
`oldName`, the whole `fieldType` is replaced by a plain reference to `newName`
(the source writes `Options.name` with no decoration, so `!` is dropped). -/
def updateFieldTypeReferences (field : Field) (oldName newName : String) : Field :=
  if getTypeName field.type = oldName then { field with type := ⟨newName, false⟩ } else field

/-- The per-node transform of `renameTypeInAST`: rename a node bearing
`oldName` (its own fields are left alone by the early return); for any other
node, rewrite its field references to `oldName`. -/
def renameNodeFun (oldName newName : String) (node : Node) : Node :=
  if node.name = oldName then { node with name := newName }
  else { node with fields := node.fields.map (fun f => updateFieldTypeReferences f oldName newName) }

/-- Source `renameTypeInAST`: rename nodes bearing `oldName` and update field
type references across the document. -/
def renameTypeInAST (ast : ParserTree) (oldName newName : String) : ParserTree :=
  { ast with nodes := ast.nodes.map (renameNodeFun oldName newName) }

/-- Wrap a string literal in double quotes, as `addTypeToAST` does when it
builds directive argument values via template strings. -/
def quoteStr (s : String) : String :=
  "\"" ++ s ++ "\""

/-- The composite nodeId `addTypeToAST` derives from blockId and role. -/
def compositeNodeId (blockId blockEntityType : String) : String :=
  if blockEntityType = BLOCK_ENTITY_BLOCK then blockId
  else blockId ++ (if blockEntityType = BLOCK_ENTITY_INPUT then NODEID_SUFFIX_INPUT else NODEID_SUFFIX_RESULT)

/-- The type definition `addTypeToAST` synthesizes: default fields (`id: ID!`,
plus `timestamp: String!` for events) and an `eventModelingBlock` directive
carrying nodeId, blockType, blockId, blockEntityType and version 1. -/
def addedNode (typeName blockType blockId blockEntityType : String) : Node :=
  ⟨typeName, TypeDefKind.objectType,
   [⟨"id", ⟨"ID", true⟩⟩] ++ (if blockType = "event" then [⟨"timestamp", ⟨"String", true⟩⟩] else []),
   [⟨EVENT_MODELING_BLOCK,
     [⟨ARG_NODE_ID, quoteStr (compositeNodeId blockId blockEntityType)⟩,
      ⟨"blockType", quoteStr blockType⟩,
      ⟨ARG_BLOCK_ID, quoteStr blockId⟩,
      ⟨ARG_BLOCK_ENTITY_TYPE, quoteStr blockEntityType⟩,
      ⟨"version", "1"⟩]⟩]⟩

/-- Source `addTypeToAST` (blockId/blockEntityType form): append the
synthesized type definition. -/
def addTypeToAST (ast : ParserTree) (typeName blockType blockId blockEntityType : String) : ParserTree :=
  { ast with nodes := ast.nodes ++ [addedNode typeName blockType blockId blockEntityType] }

/-- Source `removeTypeFromAST`: keep exactly the nodes whose name differs. -/
def removeTypeFromAST (ast : ParserTree) (typeName : String) : ParserTree :=
  { ast with nodes := ast.nodes.filter (fun node => node.name ≠ typeName) }

/-- Source `findOrphanedTypes`: object/input nodes whose decoded blockId is
non-empty and not among active block ids. -/
def findOrphanedTypes (ast : ParserTree) (activeBlocks : List BlockInfo) : List Node :=
  let activeBlockIds := activeBlocks.map (fun b => b.id)
  ast.nodes.filter (fun node =>
    isTargetTypeKind node.kind &&
    ((nodeBlockKey node).blockId ≠ "" && (nodeBlockKey node).blockId ∉ activeBlockIds))

/-- Source `createEventModelingDirective`: rebuild the identity directive from a
composite nodeId; argument literals are written unquoted here. -/
def createEventModelingDirective (nodeId blockType : String) (version : Nat) : Directive :=
  let blockId := extractBaseNodeId nodeId
  let blockEntityType :=
    if strEndsWith nodeId NODEID_SUFFIX_INPUT then BLOCK_ENTITY_INPUT
    else if strEndsWith nodeId NODEID_SUFFIX_RESULT then BLOCK_ENTITY_RESULT
    else BLOCK_ENTITY_BLOCK
  ⟨EVENT_MODELING_BLOCK,
    [⟨ARG_NODE_ID, nodeId⟩,
     ⟨"blockType", blockType⟩,
     ⟨ARG_BLOCK_ID, blockId⟩,
     ⟨ARG_BLOCK_ENTITY_TYPE, blockEntityType⟩,
     ⟨"version", toString version⟩]⟩

/-- Source `updateTypeDirective`: replace the identity directive (via
`addDirectiveToType`) and optionally rename the node. -/
def updateTypeDirective (node : Node) (nodeId blockType : String) (newTypeName : Option String) : Node :=
  let directive := createEventModelingDirective nodeId blockType 1
  let updatedNode := addDirectiveToType node directive
  match newTypeName with
  | some n => { updatedNode with name := n }
  | none => updatedNode

/-! Synchronization controller (src/state/schemaState.tsx). -/

/-- Split a character sequence at spaces. -/
def splitOnSpaceAux : List Char → List Char → List (List Char)
  | [], cur => [cur.reverse]
  | c :: rest, cur => if c = ' ' then cur.reverse :: splitOnSpaceAux rest [] else splitOnSpaceAux rest (c :: cur)

/-- Capitalize the first character of a word. -/
def capitalizeChars : List Char → List Char
  | [] => []
  | c :: rest => c.toUpper :: rest

/-- Modelled from the spec: `toCamelCase` of src/utils/stringUtils.ts is absent
from the source snapshot.  The spec calls the name transform a stable
camel-case-like projection; the repository documentation shows
"User Registration" mapping to "UserRegistration": split the title at spaces,
capitalize each word, and concatenate. -/
def toCamelCase (s : String) : String :=
  String.mk (((splitOnSpaceAux s.data []).map capitalizeChars).flatten)

def TYPE_SUFFIX_INPUT : String := "Input"

def TYPE_SUFFIX_COMMAND_RESULT : String := "CommandResult"

/-- One required type of a block: its computed name and entity role. -/
structure TypeEntry where
  typeName : String
  blockEntityType : String
deriving DecidableEq

/-- Source `getBlockTypeEntries`: command blocks require input and result
types; event/view (and anything else) require a single `block` type. -/
def getBlockTypeEntries (block : BlockInfo) : List TypeEntry :=
  let typeName := toCamelCase block.title
  if block.type = "command" then
    [⟨typeName ++ TYPE_SUFFIX_INPUT, BLOCK_ENTITY_INPUT⟩,
     ⟨typeName ++ TYPE_SUFFIX_COMMAND_RESULT, BLOCK_ENTITY_RESULT⟩]
  else
    [⟨typeName, BLOCK_ENTITY_BLOCK⟩]

/-- An addition of the change plan. -/
structure TypeToAdd where
  typeName : String
  blockType : String
  blockId : String
  blockEntityType : String
deriving DecidableEq

/-- A rename of the change plan. -/
structure TypeToRename where
  oldName : String
  newName : String
  nodeId : String
deriving DecidableEq

/-- Source `SchemaChangePlan`. -/
structure SchemaChangePlan where
  typesToAdd : List TypeToAdd
  typesToRename : List TypeToRename
  typesToRemove : List String
deriving DecidableEq

def emptyPlan : SchemaChangePlan :=
  ⟨[], [], []⟩

/-- JS `Map.set`: replace the binding of the key, else append it. -/
def jsMapSet (m : List (String × Node)) (k : String) (v : Node) : List (String × Node) :=
  if m.any (fun p => p.1 = k) then m.map (fun p => if p.1 = k then (k, v) else p) else m ++ [(k, v)]

/-- JS `Map.get`. -/
def jsMapGet (m : List (String × Node)) (k : String) : Option Node :=
  (m.find? (fun p => p.1 = k)).map (fun p => p.2)

/-- The map key string the controller builds: blockId, a tab, blockEntityType. -/
def keyString (blockId blockEntityType : String) : String :=
  blockId ++ "\t" ++ blockEntityType

/-- One insertion step of the `existingByBlockEntityType` map construction. -/
def buildStep (m : List (String × Node)) (t : Node) : List (String × Node) :=
  let key := nodeBlockKey t
  if key.blockId ≠ "" ∧ key.blockEntityType ≠ "" then jsMapSet m (keyString key.blockId key.blockEntityType) t
  else m

/-- The `existingByBlockEntityType` map of `analyzeBlockSchemaChanges`: related
types keyed by decoded blockId and blockEntityType (skipped when either is
empty). -/
def buildExistingMap (types : List Node) : List (String × Node) :=
  types.foldl buildStep []

/-- One step of the loop of `analyzeBlockSchemaChanges`: check one required
entry against the `existingByBlockEntityType` map and extend the plan. -/
def analyzeStep (block : BlockInfo) (existingByBlockEntityType : List (String × Node))
    (changes : SchemaChangePlan) (entry : TypeEntry) : SchemaChangePlan :=
  let key := keyString block.id entry.blockEntityType
  match jsMapGet existingByBlockEntityType key with
  | some existingType =>
    if existingType.name ≠ entry.typeName then
      { changes with typesToRename := changes.typesToRename ++ [⟨existingType.name, entry.typeName, key⟩] }
    else changes
  | none =>
    { changes with typesToAdd := changes.typesToAdd ++ [⟨entry.typeName, block.type, block.id, entry.blockEntityType⟩] }

/-- Source `analyzeBlockSchemaChanges`: for each required entry of the block,
emit a rename when a type with the same key exists under a different name, an
addition when no type has the key, and nothing when name and key both match. -/
def analyzeBlockSchemaChanges (block : BlockInfo) (ast : ParserTree) : SchemaChangePlan :=
  (getBlockTypeEntries block).foldl
    (analyzeStep block (buildExistingMap (findRelatedTypes ast block.id))) emptyPlan

/-- Source `collectBlockChanges`: concatenate per-block additions and renames. -/
def collectBlockChanges (blocks : List BlockInfo) (ast : ParserTree) : SchemaChangePlan :=
  blocks.foldl (fun plan block =>
    let blockChanges := analyzeBlockSchemaChanges block ast
    ⟨plan.typesToAdd ++ blockChanges.typesToAdd,
     plan.typesToRename ++ blockChanges.typesToRename,
     plan.typesToRemove⟩) emptyPlan

/-- Source `addOrphanedTypesToPlan`: append orphaned type names to removals. -/
def addOrphanedTypesToPlan (plan : SchemaChangePlan) (ast : ParserTree) (blocks : List BlockInfo) : SchemaChangePlan :=
  { plan with typesToRemove := plan.typesToRemove ++ (findOrphanedTypes ast blocks).map (fun t => t.name) }

/-- Source `applyRenames`. -/
def applyRenames (ast : ParserTree) (renames : List TypeToRename) : ParserTree :=
  renames.foldl (fun currentAST r => renameTypeInAST currentAST r.oldName r.newName) ast

/-- Source `applyAdditions`. -/
def applyAdditions (ast : ParserTree) (additions : List TypeToAdd) : ParserTree :=
  additions.foldl (fun currentAST a => addTypeToAST currentAST a.typeName a.blockType a.blockId a.blockEntityType) ast

/-- Source `applyRemovals`. -/
def applyRemovals (ast : ParserTree) (removals : List String) : ParserTree :=
  removals.foldl (fun currentAST typeName => removeTypeFromAST currentAST typeName) ast

/-- Source `applyChangePlan`: renames, then additions, then removals. -/
def applyChangePlan (ast : ParserTree) (plan : SchemaChangePlan) : ParserTree :=
  applyRemovals (applyAdditions (applyRenames ast plan.typesToRename) plan.typesToAdd) plan.typesToRemove

/-- The plan `syncSchemaWithBlocks` computes: per-block changes, then orphans. -/
def computePlan (blocks : List BlockInfo) (ast : ParserTree) : SchemaChangePlan :=
  addOrphanedTypesToPlan (collectBlockChanges blocks ast) ast blocks

/-! SDL codec, modelled from the spec (§4.1).  The implementation delegated to
graphql-js-tree (`Parser.parse`, `TreeToGraphQL.parse`), which is not part of
the source snapshot; the model below is a concrete SDL serializer and parser
satisfying the spec contract: parse fails on malformed input, serialize always
succeeds, and text produced by serialize round-trips byte-identically. -/

/-- Identifier characters of the SDL grammar. -/
def isIdentChar (c : Char) : Bool :=
  c.isAlphanum || c = '_'

def serializeFieldTypeChars (ft : FieldType) : List Char :=
  ft.base.data ++ (if ft.required then ['!'] else [])

def serializeFieldChars (f : Field) : List Char :=
  ' ' :: ' ' :: (f.name.data ++ ':' :: ' ' :: serializeFieldTypeChars f.type ++ ['\n'])

def serializeArgChars (a : DirArg) : List Char :=
  a.name.data ++ ':' :: ' ' :: a.value.data

def serializeArgsChars : List DirArg → List Char
  | [] => []
  | [a] => serializeArgChars a
  | a :: b :: rest => serializeArgChars a ++ ',' :: ' ' :: serializeArgsChars (b :: rest)

def serializeDirectiveChars (d : Directive) : List Char :=
  ' ' :: '@' :: d.name.data ++
    (match d.args with
     | [] => []
     | _ => '(' :: serializeArgsChars d.args ++ [')'])

def serializeDirectivesChars (ds : List Directive) : List Char :=
  (ds.map serializeDirectiveChars).flatten

def kindKeywordChars : TypeDefKind → List Char
  | TypeDefKind.objectType => "type ".data
  | TypeDefKind.inputObjectType => "input ".data
  | TypeDefKind.scalarType => "scalar ".data

def serializeNodeChars (n : Node) : List Char :=
  kindKeywordChars n.kind ++ n.name.data ++ serializeDirectivesChars n.directives ++
    (match n.kind with
     | TypeDefKind.scalarType => ['\n']
     | _ => ' ' :: '\x7b' :: '\n' :: ((n.fields.map serializeFieldChars).flatten ++ '\x7d' :: ['\n']))

def serializeTreeChars (ast : ParserTree) : List Char :=
  (ast.nodes.map serializeNodeChars).flatten

/-- Modelled from the spec: `generateSchemaFromAST` (serialize).  The source
delegates to graphql-js-tree `TreeToGraphQL.parse`; the spec requires that
serialization always succeeds for ASTs built by this subsystem. -/
def generateSchemaFromAST (ast : ParserTree) : String :=
  String.mk (serializeTreeChars ast)

/-- Match a literal character sequence at the head of the input. -/
def expectPrefix : List Char → List Char → Option (List Char)
  | [], cs => some cs
  | p :: ps, c :: cs => if c = p then expectPrefix ps cs else none
  | _ :: _, [] => none

/-- Parse one raw argument literal: a quoted string or a plain token. -/
def parseRawValue (cs : List Char) : Option (String × List Char) :=
  match cs with
  | [] => none
  | c :: rest =>
    if c = '"' then
      match rest.dropWhile (fun x => !(x = '"')) with
      | '"' :: rest2 =>
        some (String.mk ('"' :: (rest.takeWhile (fun x => !(x = '"')) ++ ['"'])), rest2)
      | _ => none
    else
      if (c :: rest).takeWhile isIdentChar = [] then none
      else some (String.mk ((c :: rest).takeWhile isIdentChar), (c :: rest).dropWhile isIdentChar)

/-- Parse a non-empty comma-separated argument list up to the closing paren. -/
def parseArgs (fuel : Nat) (cs : List Char) : Option (List DirArg × List Char) :=
  match fuel with
  | 0 => none
  | fuel + 1 =>
    if cs.takeWhile isIdentChar = [] then none
    else
      match expectPrefix [':', ' '] (cs.dropWhile isIdentChar) with
      | none => none
      | some cs2 =>
        match parseRawValue cs2 with
        | none => none
        | some (v, cs3) =>
          match cs3 with
          | ')' :: cs4 => some ([⟨String.mk (cs.takeWhile isIdentChar), v⟩], cs4)
          | ',' :: ' ' :: cs4 =>
            (match parseArgs fuel cs4 with
             | some (args, cs5) => some (⟨String.mk (cs.takeWhile isIdentChar), v⟩ :: args, cs5)
             | none => none)
          | _ => none

/-- Parse directive applications, each introduced by a space and an at sign. -/
def parseDirectives (fuel : Nat) (cs : List Char) : Option (List Directive × List Char) :=
  match fuel with
  | 0 => none
  | fuel + 1 =>
    match cs with
    | c1 :: c2 :: cs1 =>
      if c1 = ' ' ∧ c2 = '@' then
        if cs1.takeWhile isIdentChar = [] then none
        else
          match cs1.dropWhile isIdentChar with
          | '(' :: cs3 =>
            (match parseArgs fuel cs3 with
             | some (args, cs4) =>
               (match parseDirectives fuel cs4 with
                | some (ds, cs5) => some (⟨String.mk (cs1.takeWhile isIdentChar), args⟩ :: ds, cs5)
                | none => none)
             | none => none)
          | cs2 =>
            (match parseDirectives fuel cs2 with
             | some (ds, cs5) => some (⟨String.mk (cs1.takeWhile isIdentChar), []⟩ :: ds, cs5)
             | none => none)
      else some ([], cs)
    | _ => some ([], cs)

/-- Parse indented field lines up to the closing brace line. -/
def parseFields (fuel : Nat) (cs : List Char) : Option (List Field × List Char) :=
  match fuel with
  | 0 => none
  | fuel + 1 =>
    match cs with
    | '\x7d' :: '\n' :: cs1 => some ([], cs1)
    | ' ' :: ' ' :: cs1 =>
      if cs1.takeWhile isIdentChar = [] then none
      else
        match expectPrefix [':', ' '] (cs1.dropWhile isIdentChar) with
        | none => none
        | some cs3 =>
          if cs3.takeWhile isIdentChar = [] then none
          else
            match cs3.dropWhile isIdentChar with
            | '!' :: '\n' :: cs5 =>
              (match parseFields fuel cs5 with
               | some (fs, rest) =>
                 some (⟨String.mk (cs1.takeWhile isIdentChar),
                   ⟨String.mk (cs3.takeWhile isIdentChar), true⟩⟩ :: fs, rest)
               | none => none)
            | '\n' :: cs5 =>
              (match parseFields fuel cs5 with
               | some (fs, rest) =>
                 some (⟨String.mk (cs1.takeWhile isIdentChar),
                   ⟨String.mk (cs3.takeWhile isIdentChar), false⟩⟩ :: fs, rest)
               | none => none)
            | _ => none
    | _ => none

/-- Parse one type definition. -/
def parseNode (fuel : Nat) (cs : List Char) : Option (Node × List Char) :=
  match
    (match expectPrefix "type ".data cs with
     | some cs1 => some (TypeDefKind.objectType, cs1)
     | none =>
       match expectPrefix "input ".data cs with
       | some cs1 => some (TypeDefKind.inputObjectType, cs1)
       | none =>
         match expectPrefix "scalar ".data cs with
         | some cs1 => some (TypeDefKind.scalarType, cs1)
         | none => none) with
  | none => none
  | some (kind, cs1) =>
    if cs1.takeWhile isIdentChar = [] then none
    else
      match parseDirectives fuel (cs1.dropWhile isIdentChar) with
      | none => none
      | some (ds, cs3) =>
        match kind with
        | TypeDefKind.scalarType =>
          (match cs3 with
           | '\n' :: cs4 => some (⟨String.mk (cs1.takeWhile isIdentChar), kind, [], ds⟩, cs4)
           | _ => none)
        | _ =>
          match cs3 with
          | ' ' :: '\x7b' :: '\n' :: cs4 =>
            (match parseFields fuel cs4 with
             | some (fs, cs5) => some (⟨String.mk (cs1.takeWhile isIdentChar), kind, fs, ds⟩, cs5)
             | none => none)
          | _ => none

/-- Parse a sequence of type definitions to the end of input. -/
def parseNodes (fuel : Nat) (cs : List Char) : Option (List Node × List Char) :=
  match fuel with
  | 0 => none
  | fuel + 1 =>
    if cs = [] then some ([], [])
    else
      match parseNode fuel cs with
      | none => none
      | some (n, rest) =>
        match parseNodes fuel rest with
        | some (ns, rest2) => some (n :: ns, rest2)
        | none => none

/-- Modelled from the spec: `parseSchemaToAST` (parse).  The source delegates
to graphql-js-tree `Parser.parse` and rethrows its failures; the spec requires
a `ParseError` on malformed input and no partial results. -/
def parseSchemaToAST (schema : String) : Except String ParserTree :=
  match parseNodes (schema.data.length + 1) schema.data with
  | some (nodes, []) => Except.ok ⟨nodes⟩
  | _ => Except.error "Schema parsing failed"

/-! Well-formedness of the content the codec round-trips (identifier names,
well-formed argument literals, scalars without fields). -/

def nameWF (s : String) : Bool :=
  !s.data.isEmpty && s.data.all isIdentChar

def valueWF (s : String) : Bool :=
  match s.data with
  | '"' :: rest => !rest.isEmpty && rest.getLast? = some '"' && rest.dropLast.all (fun c => !(c = '"'))
  | cs => !cs.isEmpty && cs.all isIdentChar

def argWF (a : DirArg) : Bool :=
  nameWF a.name && valueWF a.value

def directiveWF (d : Directive) : Bool :=
  nameWF d.name && d.args.all argWF

def fieldWF (f : Field) : Bool :=
  nameWF f.name && nameWF f.type.base

def nodeWF (n : Node) : Bool :=
  nameWF n.name && n.fields.all fieldWF && n.directives.all directiveWF &&
    (!(n.kind = TypeDefKind.scalarType) || n.fields.isEmpty)

def treeWF (ast : ParserTree) : Bool :=
  ast.nodes.all nodeWF

/-! Synchronization controller state (src/state/schemaState.tsx). -/

/-- The `PassedSchema` record exchanged with the editor widget: schema text,
auxiliary libraries (absent in app-driven updates), and provenance
(`"code"` / `"tree"` are editor-originated, `"outside"` is app-driven). -/
structure PassedSchema where
  code : String
  libraries : Option String
  source : String
deriving DecidableEq

/-- The provider's state: the held document and the rename notification. -/
structure SchemaProviderState where
  schema : PassedSchema
  schemaRenameNotification : Option String
deriving DecidableEq

/-- Source `updateSchema`: preserve editor-originated provenance (`"code"` or
`"tree"`), default anything else to `"outside"`; clear the notification. -/
def updateSchema (data : PassedSchema) (st : SchemaProviderState) : SchemaProviderState :=
  let source := if data.source = "code" ∨ data.source = "tree" then data.source else "outside"
  { st with
    schema := { data with source := source },
    schemaRenameNotification := none }

/-- Source `syncSchemaWithBlocks`: parse the held code, compute the change
plan, and only when the plan is non-empty apply it, serialize, and store with
provenance `"outside"` (the update passes no `libraries` field); a parse
failure is caught and leaves the state unchanged. -/
def syncSchemaWithBlocks (blocks : List BlockInfo) (st : SchemaProviderState) : SchemaProviderState :=
  match parseSchemaToAST st.schema.code with
  | Except.error _ => st
  | Except.ok ast =>
    let changePlan := computePlan blocks ast
    if 0 < changePlan.typesToAdd.length ∨ 0 < changePlan.typesToRename.length ∨
        0 < changePlan.typesToRemove.length then
      let updatedAST := applyChangePlan ast changePlan
      let updatedSchemaCode := generateSchemaFromAST updatedAST
      updateSchema ⟨updatedSchemaCode, none, "outside"⟩ st
    else st

/-! Derived notions used to state and prove the claims. -/

/-- The rename one `analyzeStep` emits, as a function of the map. -/
def renOfKey (block : BlockInfo) (m : List (String × Node)) (e : TypeEntry) : Option TypeToRename :=
  match jsMapGet m (keyString block.id e.blockEntityType) with
  | some existingType =>
    if existingType.name ≠ e.typeName then
      some ⟨existingType.name, e.typeName, keyString block.id e.blockEntityType⟩
    else none
  | none => none

/-- The addition one `analyzeStep` emits, as a function of the map. -/
def addOfKey (block : BlockInfo) (m : List (String × Node)) (e : TypeEntry) : Option TypeToAdd :=
  match jsMapGet m (keyString block.id e.blockEntityType) with
  | some _ => none
  | none => some ⟨e.typeName, block.type, block.id, e.blockEntityType⟩

/-- The lookup `analyzeBlockSchemaChanges` performs for one required entry. -/
def lookupEntry (block : BlockInfo) (ast : ParserTree) (e : TypeEntry) : Option Node :=
  jsMapGet (buildExistingMap (findRelatedTypes ast block.id)) (keyString block.id e.blockEntityType)

/-- The rename `analyzeBlockSchemaChanges` emits for one required entry. -/
def renOfEntry (block : BlockInfo) (ast : ParserTree) (e : TypeEntry) : Option TypeToRename :=
  renOfKey block (buildExistingMap (findRelatedTypes ast block.id)) e

/-- The addition `analyzeBlockSchemaChanges` emits for one required entry. -/
def addOfEntry (block : BlockInfo) (ast : ParserTree) (e : TypeEntry) : Option TypeToAdd :=
  addOfKey block (buildExistingMap (findRelatedTypes ast block.id)) e

/-- All type names the active blocks require. -/
def requiredTypeNames (blocks : List BlockInfo) : List String :=
  (blocks.map (fun b => (getBlockTypeEntries b).map (fun e => e.typeName))).flatten

/-- Number of identity directives a node carries. -/
def identityDirectiveCount (node : Node) : Nat :=
  (node.directives.filter (fun d => d.name = EVENT_MODELING_BLOCK)).length

/-- The invariant that every node carries at most one identity directive. -/
def atMostOneIdentityDirective (ast : ParserTree) : Prop :=
  ∀ node ∈ ast.nodes, identityDirectiveCount node ≤ 1

/-! Concrete fixtures used by witnesses, counterexamples and scenario parts of
the claims. -/

/-- An identity directive in the explicit (current) encoding, as the sync
additions write it. -/
def tagDirective (bid ety : String) : Directive :=
  ⟨EVENT_MODELING_BLOCK, [⟨ARG_BLOCK_ID, quoteStr bid⟩, ⟨ARG_BLOCK_ENTITY_TYPE, quoteStr ety⟩]⟩

/-- The managed type the end-to-end Checkout scenario produces. -/
def exCheckout : Node :=
  ⟨"Checkout", TypeDefKind.objectType,
   [⟨"id", ⟨"ID", true⟩⟩, ⟨"timestamp", ⟨"String", true⟩⟩],
   [⟨EVENT_MODELING_BLOCK,
     [⟨ARG_NODE_ID, "\"b1\""⟩, ⟨"blockType", "\"event\""⟩, ⟨ARG_BLOCK_ID, "\"b1\""⟩,
      ⟨ARG_BLOCK_ENTITY_TYPE, "\"block\""⟩, ⟨"version", "1"⟩]⟩]⟩

/-- A hand-written, untagged user type. -/
def exKeep : Node :=
  ⟨"Keep", TypeDefKind.objectType, [⟨"x", ⟨"String", false⟩⟩], []⟩

/-- A managed type of the active block b1, named Foo. -/
def exFooActive : Node :=
  ⟨"Foo", TypeDefKind.objectType, [⟨"id", ⟨"ID", true⟩⟩], [tagDirective "b1" "block"]⟩

/-- A managed type of a deleted block, also named Foo. -/
def exFooOrphan : Node :=
  ⟨"Foo", TypeDefKind.objectType, [⟨"id", ⟨"ID", true⟩⟩], [tagDirective "dead" "block"]⟩

/-- An untagged user type that shares the orphan's name. -/
def exFooUser : Node :=
  ⟨"Foo", TypeDefKind.objectType, [⟨"note", ⟨"String", false⟩⟩], []⟩

/-- The input type of command block b1. -/
def exPayInput : Node :=
  ⟨"PayInput", TypeDefKind.objectType, [⟨"id", ⟨"ID", true⟩⟩], [tagDirective "b1" "input"]⟩

/-- The result type of command block b1. -/
def exPayResult : Node :=
  ⟨"PayResult", TypeDefKind.objectType, [⟨"id", ⟨"ID", true⟩⟩], [tagDirective "b1" "result"]⟩

/-- A provider state holding the serialization of the given nodes. -/
def stWith (nodes : List Node) : SchemaProviderState :=
  ⟨⟨generateSchemaFromAST ⟨nodes⟩, some "", "outside"⟩, none⟩

/-- The cumulative effect of `applyRenames` on one node: each rename applied
in plan order. -/
def renChain (rens : List TypeToRename) (node : Node) : Node :=
  rens.foldl (fun nd r => renameNodeFun r.oldName r.newName nd) node

/-- The cumulative effect of the renames on a bare name. -/
def renChainName (rens : List TypeToRename) (nm : String) : String :=
  rens.foldl (fun s r => if s = r.oldName then r.newName else s) nm

/-- The node an addition record materializes as. -/
def mkAddNode (a : TypeToAdd) : Node :=
  addedNode a.typeName a.blockType a.blockId a.blockEntityType

/-- Whether a node survives the removal phase. -/
def keepAfter (removals : List String) (nd : Node) : Bool :=
  removals.all (fun t => !(nd.name = t))

/-- The map key string of a node's decoded identity. -/
def nodeKeyStr (nd : Node) : String :=
  keyString (nodeBlockKey nd).blockId (nodeBlockKey nd).blockEntityType

/-- Whether a node is a managed object/input type (readable blockId). -/
def managedTarget (nd : Node) : Bool :=
  isTargetTypeKind nd.kind && (nodeBlockKey nd).blockId ≠ ""

/-- The nodes of the document a required (blockId, blockEntityType) key can
match: object/input nodes whose decoded identity equals the key. -/
def entryNodes (ast : ParserTree) (bid ety : String) : List Node :=
  ast.nodes.filter (fun nd => isTargetTypeKind nd.kind &&
    decide ((nodeBlockKey nd).blockId = bid) && decide ((nodeBlockKey nd).blockEntityType = ety))

/-- Well-formedness of a block for serialization and decoding: an identifier
id, a quote-free type tag, and identifier required type names. -/
def blockWF (b : BlockInfo) : Bool :=
  nameWF b.id && b.type.data.all (fun c => !(c = '"')) &&
  (getBlockTypeEntries b).all (fun e => nameWF e.typeName)

/-- The side conditions under which sync is idempotent: a well-formed document
with distinct type names and distinct managed keys, well-formed blocks with
distinct ids, no rename target colliding with a rename source, and no removal
of a type name an active block requires.  The counterexample to the unguarded
claim violates the last condition. -/
def SyncGuard (ast : ParserTree) (blocks : List BlockInfo) : Prop :=
  treeWF ast = true ∧
  blocks.all blockWF = true ∧
  (ast.nodes.map (fun nd => nd.name)).Nodup ∧
  ((ast.nodes.filter managedTarget).map nodeKeyStr).Nodup ∧
  (blocks.map (fun b => b.id)).Nodup ∧
  (∀ r ∈ (computePlan blocks ast).typesToRename,
    ∀ r2 ∈ (computePlan blocks ast).typesToRename, ¬(r.newName = r2.oldName)) ∧
  (∀ t ∈ (computePlan blocks ast).typesToRemove, t ∉ requiredTypeNames blocks)

instance (ast : ParserTree) (blocks : List BlockInfo) : Decidable (SyncGuard ast blocks) := by
  unfold SyncGuard
  infer_instance

/-- Fuel needed by `parseArgs` for an argument list. -/
def argsLoad (args : List DirArg) : Nat :=
  args.length

/-- Fuel needed by `parseDirectives` for a directive list. -/
def dirLoad : List Directive → Nat
  | [] => 1
  | d :: t => 1 + max (argsLoad d.args) (dirLoad t)

/-- Fuel needed by `parseNode` for one node. -/
def nodeLoad (n : Node) : Nat :=
  max (dirLoad n.directives) (n.fields.length + 1)

/-- Fuel needed by `parseNodes` for a node list. -/
def nodesLoad : List Node → Nat
  | [] => 1
  | n :: t => 1 + max (nodeLoad n) (nodesLoad t)

/-- Decidable equality for parse results, used to evaluate concrete runs. -/
instance : DecidableEq (Except String ParserTree) := fun a b =>
  match a, b with
  | Except.ok x, Except.ok y => decidable_of_iff (x = y) (by simp)
  | Except.error x, Except.error y => decidable_of_iff (x = y) (by simp)
  | Except.ok _, Except.error _ => isFalse (by simp)
  | Except.error _, Except.ok _ => isFalse (by simp)

/-! Theorems.  Helper lemmas first, then one theorem per claim. -/

theorem strMk_data (s : String) : String.mk s.data = s := by
  cases s
  rfl

theorem strDropRight_append_of_strEndsWith (s suf : String) (h : strEndsWith s suf = true) :
    strDropRight s suf.length ++ suf = s := by
  rcases List.isSuffixOf_iff_suffix.mp h with ⟨t, ht⟩
  have hlen : s.data.length - suf.length = t.length := by
    rw [← ht]
    show (t ++ suf.data).length - suf.data.length = t.length
    rw [List.length_append]
    omega
  have htake : s.data.take (s.data.length - suf.length) = t := by
    rw [hlen, ← ht, List.take_left]
  show String.mk (s.data.take (s.data.length - suf.length)) ++ suf = s
  rw [htake]
  have : String.mk t ++ suf = String.mk (t ++ suf.data) := rfl
  rw [this, ht, strMk_data]

theorem extractBaseNodeId_of_no_suffix (s : String)
    (h1 : strEndsWith s NODEID_SUFFIX_INPUT = false)
    (h2 : strEndsWith s NODEID_SUFFIX_RESULT = false) :
    extractBaseNodeId s = s := by
  simp [extractBaseNodeId, h1, h2]

/-- C2: the controller's update operation preserves the incoming provenance
tag when it is one of the two external values ("code" for external text edits,
"tree" for external tree edits) and defaults every other provenance to the
system value "outside"; reading the held document back reports that value. -/
theorem C2_update_provenance (data : PassedSchema) (st : SchemaProviderState) :
    ((data.source = "code" ∨ data.source = "tree") →
      (updateSchema data st).schema.source = data.source) ∧
    (¬(data.source = "code" ∨ data.source = "tree") →
      (updateSchema data st).schema.source = "outside") := by
  constructor
  · intro h
    show (if data.source = "code" ∨ data.source = "tree" then data.source else "outside") = data.source
    rw [if_pos h]
  · intro h
    show (if data.source = "code" ∨ data.source = "tree" then data.source else "outside") = "outside"
    rw [if_neg h]

theorem C2_update_provenance_witness :
    (updateSchema ⟨"t", none, "code"⟩ ⟨⟨"", none, "outside"⟩, none⟩).schema.source = "code" ∧
    (updateSchema ⟨"t", none, "tree"⟩ ⟨⟨"", none, "outside"⟩, none⟩).schema.source = "tree" ∧
    (updateSchema ⟨"t", none, "import"⟩ ⟨⟨"", none, "outside"⟩, none⟩).schema.source = "outside" :=
  ⟨(C2_update_provenance ⟨"t", none, "code"⟩ ⟨⟨"", none, "outside"⟩, none⟩).1 (Or.inl rfl),
   (C2_update_provenance ⟨"t", none, "tree"⟩ ⟨⟨"", none, "outside"⟩, none⟩).1 (Or.inr rfl),
   (C2_update_provenance ⟨"t", none, "import"⟩ ⟨⟨"", none, "outside"⟩, none⟩).2 (by decide)⟩

/-- C6: readIdentity returns the explicit blockId/blockEntityType argument
values when both are present, taking precedence over the legacy encoding;
otherwise it decodes the legacy composite nodeId token by suffix stripping:
a token ending in "-input" yields role input, one ending in "-result" yields
role result, and any other token yields role block with the token itself as
blockId. -/
theorem C6_identity_decoding (d : Option Directive) :
    (getDirectiveArg d ARG_BLOCK_ID ≠ "" → getDirectiveArg d ARG_BLOCK_ENTITY_TYPE ≠ "" →
      getBlockIdAndEntityTypeFromDirective d =
        ⟨getDirectiveArg d ARG_BLOCK_ID, getDirectiveArg d ARG_BLOCK_ENTITY_TYPE⟩) ∧
    (¬(getDirectiveArg d ARG_BLOCK_ID ≠ "" ∧ getDirectiveArg d ARG_BLOCK_ENTITY_TYPE ≠ "") →
      getDirectiveArg d ARG_NODE_ID ≠ "" →
      ((strEndsWith (getDirectiveArg d ARG_NODE_ID) NODEID_SUFFIX_INPUT = true →
          getBlockIdAndEntityTypeFromDirective d =
            ⟨extractBaseNodeId (getDirectiveArg d ARG_NODE_ID), BLOCK_ENTITY_INPUT⟩ ∧
          extractBaseNodeId (getDirectiveArg d ARG_NODE_ID) ++ NODEID_SUFFIX_INPUT =
            getDirectiveArg d ARG_NODE_ID) ∧
       (strEndsWith (getDirectiveArg d ARG_NODE_ID) NODEID_SUFFIX_INPUT = false →
        strEndsWith (getDirectiveArg d ARG_NODE_ID) NODEID_SUFFIX_RESULT = true →
          getBlockIdAndEntityTypeFromDirective d =
            ⟨extractBaseNodeId (getDirectiveArg d ARG_NODE_ID), BLOCK_ENTITY_RESULT⟩ ∧
          extractBaseNodeId (getDirectiveArg d ARG_NODE_ID) ++ NODEID_SUFFIX_RESULT =
            getDirectiveArg d ARG_NODE_ID) ∧
       (strEndsWith (getDirectiveArg d ARG_NODE_ID) NODEID_SUFFIX_INPUT = false →
        strEndsWith (getDirectiveArg d ARG_NODE_ID) NODEID_SUFFIX_RESULT = false →
          getBlockIdAndEntityTypeFromDirective d =
            ⟨getDirectiveArg d ARG_NODE_ID, BLOCK_ENTITY_BLOCK⟩))) := by
  constructor
  · intro h1 h2
    unfold getBlockIdAndEntityTypeFromDirective
    rw [if_pos ⟨h1, h2⟩]
  · intro h hn
    refine ⟨?_, ?_, ?_⟩
    · intro hi
      constructor
      · unfold getBlockIdAndEntityTypeFromDirective
        rw [if_neg h, if_neg hn, if_pos hi]
      · have hb : extractBaseNodeId (getDirectiveArg d ARG_NODE_ID) =
            strDropRight (getDirectiveArg d ARG_NODE_ID) NODEID_SUFFIX_INPUT.length := by
          unfold extractBaseNodeId
          rw [if_pos hi]
        rw [hb]
        exact strDropRight_append_of_strEndsWith _ _ hi
    · intro hi hr
      constructor
      · unfold getBlockIdAndEntityTypeFromDirective
        rw [if_neg h, if_neg hn, if_neg (by simp [hi]), if_pos hr]
      · have hb : extractBaseNodeId (getDirectiveArg d ARG_NODE_ID) =
            strDropRight (getDirectiveArg d ARG_NODE_ID) NODEID_SUFFIX_RESULT.length := by
          unfold extractBaseNodeId
          rw [if_neg (by simp [hi]), if_pos hr]
        rw [hb]
        exact strDropRight_append_of_strEndsWith _ _ hr
    · intro hi hr
      unfold getBlockIdAndEntityTypeFromDirective
      rw [if_neg h, if_neg hn, if_neg (by simp [hi]), if_neg (by simp [hr]),
        extractBaseNodeId_of_no_suffix _ hi hr]

theorem C6_identity_decoding_witness :
    getBlockIdAndEntityTypeFromDirective
        (some ⟨EVENT_MODELING_BLOCK, [⟨ARG_NODE_ID, "b9-input"⟩, ⟨ARG_BLOCK_ID, "b1"⟩, ⟨ARG_BLOCK_ENTITY_TYPE, "result"⟩]⟩) =
      ⟨"b1", "result"⟩ ∧
    getBlockIdAndEntityTypeFromDirective (some ⟨EVENT_MODELING_BLOCK, [⟨ARG_NODE_ID, "b7-input"⟩]⟩) =
      ⟨"b7", BLOCK_ENTITY_INPUT⟩ ∧
    getBlockIdAndEntityTypeFromDirective (some ⟨EVENT_MODELING_BLOCK, [⟨ARG_NODE_ID, "b7-result"⟩]⟩) =
      ⟨"b7", BLOCK_ENTITY_RESULT⟩ ∧
    getBlockIdAndEntityTypeFromDirective (some ⟨EVENT_MODELING_BLOCK, [⟨ARG_NODE_ID, "b7"⟩]⟩) =
      ⟨"b7", BLOCK_ENTITY_BLOCK⟩ := by
  refine ⟨?_, ?_, ?_, ?_⟩
  · exact (C6_identity_decoding
      (some ⟨EVENT_MODELING_BLOCK, [⟨ARG_NODE_ID, "b9-input"⟩, ⟨ARG_BLOCK_ID, "b1"⟩, ⟨ARG_BLOCK_ENTITY_TYPE, "result"⟩]⟩)).1
      (by decide) (by decide)
  · exact (((C6_identity_decoding (some ⟨EVENT_MODELING_BLOCK, [⟨ARG_NODE_ID, "b7-input"⟩]⟩)).2
      (by decide) (by decide)).1 (by decide)).1
  · exact (((C6_identity_decoding (some ⟨EVENT_MODELING_BLOCK, [⟨ARG_NODE_ID, "b7-result"⟩]⟩)).2
      (by decide) (by decide)).2.1 (by decide) (by decide)).1
  · exact ((C6_identity_decoding (some ⟨EVENT_MODELING_BLOCK, [⟨ARG_NODE_ID, "b7"⟩]⟩)).2
      (by decide) (by decide)).2.2 (by decide) (by decide)

theorem renameNodeFun_directives (o n : String) (node : Node) :
    (renameNodeFun o n node).directives = node.directives := by
  unfold renameNodeFun
  split <;> rfl

theorem addDirectiveToType_count_one (node : Node) (directive : Directive) :
    ((addDirectiveToType node directive).directives.filter
        (fun d => d.name = directive.name)).length = 1 := by
  show ((node.directives.filter (fun d => d.name ≠ directive.name) ++ [directive]).filter
      (fun d => d.name = directive.name)).length = 1
  rw [List.filter_append, List.filter_filter]
  have h1 : node.directives.filter
      (fun d => decide (d.name = directive.name) && decide (d.name ≠ directive.name)) = [] := by
    apply List.filter_eq_nil_iff.mpr
    intro d _
    by_cases h : d.name = directive.name <;> simp [h]
  have h2 : [directive].filter (fun d => d.name = directive.name) = [directive] := by
    simp [List.filter]
  rw [h1, h2]
  rfl

theorem addDirectiveToType_others (node : Node) (directive : Directive) :
    (addDirectiveToType node directive).directives.filter (fun d => d.name ≠ directive.name) =
      node.directives.filter (fun d => d.name ≠ directive.name) := by
  show ((node.directives.filter (fun d => d.name ≠ directive.name) ++ [directive]).filter
      (fun d => d.name ≠ directive.name)) = _
  rw [List.filter_append, List.filter_filter]
  have h2 : [directive].filter (fun d => d.name ≠ directive.name) = [] := by
    simp [List.filter]
  rw [h2, List.append_nil]
  congr 1
  funext d
  by_cases h : d.name = directive.name <;> simp [h]

theorem identityCount_addDirective_identity (node : Node) (directive : Directive)
    (h : directive.name = EVENT_MODELING_BLOCK) :
    identityDirectiveCount (addDirectiveToType node directive) = 1 := by
  unfold identityDirectiveCount
  rw [← h]
  exact addDirectiveToType_count_one node directive

theorem identityCount_renameNodeFun (o n : String) (node : Node) :
    identityDirectiveCount (renameNodeFun o n node) = identityDirectiveCount node := by
  unfold identityDirectiveCount
  rw [renameNodeFun_directives]

theorem atMostOne_renameTypeInAST (ast : ParserTree) (o n : String)
    (h : atMostOneIdentityDirective ast) :
    atMostOneIdentityDirective (renameTypeInAST ast o n) := by
  intro node hmem
  rcases List.mem_map.mp hmem with ⟨pre, hpre, rfl⟩
  rw [identityCount_renameNodeFun]
  exact h pre hpre

theorem atMostOne_applyRenames (ast : ParserTree) (rens : List TypeToRename)
    (h : atMostOneIdentityDirective ast) :
    atMostOneIdentityDirective (applyRenames ast rens) := by
  induction rens generalizing ast with
  | nil => exact h
  | cons r rest ih => exact ih _ (atMostOne_renameTypeInAST ast r.oldName r.newName h)

theorem atMostOne_addTypeToAST (ast : ParserTree) (tn bt bid ety : String)
    (h : atMostOneIdentityDirective ast) :
    atMostOneIdentityDirective (addTypeToAST ast tn bt bid ety) := by
  intro node hmem
  rcases List.mem_append.mp hmem with hold | hnew
  · exact h node hold
  · rcases List.mem_singleton.mp hnew with rfl
    simp [identityDirectiveCount, List.filter]

theorem atMostOne_applyAdditions (ast : ParserTree) (adds : List TypeToAdd)
    (h : atMostOneIdentityDirective ast) :
    atMostOneIdentityDirective (applyAdditions ast adds) := by
  induction adds generalizing ast with
  | nil => exact h
  | cons a rest ih =>
    exact ih _ (atMostOne_addTypeToAST ast a.typeName a.blockType a.blockId a.blockEntityType h)

theorem atMostOne_applyRemovals (ast : ParserTree) (removals : List String)
    (h : atMostOneIdentityDirective ast) :
    atMostOneIdentityDirective (applyRemovals ast removals) := by
  induction removals generalizing ast with
  | nil => exact h
  | cons t rest ih =>
    apply ih
    intro node hmem
    exact h node (List.mem_of_mem_filter hmem)

/-- C9: writeIdentity replaces any existing directive of the same name rather
than appending a second one — the result carries exactly one directive of that
name and all other directives are preserved; `updateTypeDirective` leaves
exactly one identity directive; and applying a change plan preserves the
invariant that every type node bears at most one identity directive. -/
theorem C9_write_identity_replaces :
    (∀ (node : Node) (directive : Directive),
      ((addDirectiveToType node directive).directives.filter
          (fun d => d.name = directive.name)).length = 1 ∧
      (addDirectiveToType node directive).directives.filter (fun d => d.name ≠ directive.name) =
        node.directives.filter (fun d => d.name ≠ directive.name)) ∧
    (∀ (node : Node) (nodeId blockType : String) (newTypeName : Option String),
      identityDirectiveCount (updateTypeDirective node nodeId blockType newTypeName) = 1) ∧
    (∀ (ast : ParserTree) (plan : SchemaChangePlan),
      atMostOneIdentityDirective ast → atMostOneIdentityDirective (applyChangePlan ast plan)) := by
  refine ⟨fun node directive => ⟨addDirectiveToType_count_one node directive,
    addDirectiveToType_others node directive⟩, ?_, ?_⟩
  · intro node nodeId blockType newTypeName
    have hbase : identityDirectiveCount
        (addDirectiveToType node (createEventModelingDirective nodeId blockType 1)) = 1 :=
      identityCount_addDirective_identity _ _ rfl
    cases newTypeName with
    | none => exact hbase
    | some n => exact hbase
  · intro ast plan h
    exact atMostOne_applyRemovals _ _ (atMostOne_applyAdditions _ _ (atMostOne_applyRenames _ _ h))

theorem C9_write_identity_replaces_witness :
    identityDirectiveCount (updateTypeDirective exKeep "b1-input" "command" (some "PayInput")) = 1 ∧
    atMostOneIdentityDirective (applyChangePlan ⟨[exKeep, exFooActive]⟩ emptyPlan) :=
  ⟨C9_write_identity_replaces.2.1 exKeep "b1-input" "command" (some "PayInput"),
   C9_write_identity_replaces.2.2 ⟨[exKeep, exFooActive]⟩ emptyPlan (by
    intro node hmem
    fin_cases hmem <;> decide)⟩

set_option maxRecDepth 40000 in
/-- C10: removal is by name and directive-blind — `removeTypeFromAST` keeps
exactly the nodes whose name differs, tagged or not; consequently an untagged
user type sharing its name with an orphaned managed type is deleted by the
removal phase of sync along with the orphan, as the concrete sync run shows
(only the differently-named untagged type survives). -/
theorem C10_removal_by_name :
    (∀ (ast : ParserTree) (typeName : String) (node : Node),
      node ∈ (removeTypeFromAST ast typeName).nodes ↔ node ∈ ast.nodes ∧ node.name ≠ typeName) ∧
    syncSchemaWithBlocks [] (stWith [exFooOrphan, exFooUser, exKeep]) =
      ⟨⟨generateSchemaFromAST ⟨[exKeep]⟩, none, "outside"⟩, none⟩ := by
  constructor
  · intro ast typeName node
    simp [removeTypeFromAST, List.mem_filter]
  · decide

theorem nodeBlockKey_no_directive (node : Node)
    (h : node.directives.find? (fun d => d.name = EVENT_MODELING_BLOCK) = none) :
    nodeBlockKey node = ⟨"", ""⟩ := by
  unfold nodeBlockKey
  rw [h]
  rfl

set_option maxRecDepth 40000 in
/-- C4: the orphan detector returns exactly the object/input type nodes whose
decoded blockId is readable (non-empty) and not among the active block ids; a
node without any identity directive is never returned; and syncing after
removing block b1 deletes both of its tagged types while an untagged
hand-written type is untouched. -/
theorem C4_orphan_detector :
    (∀ (ast : ParserTree) (blocks : List BlockInfo) (node : Node),
      node ∈ findOrphanedTypes ast blocks ↔
        (node ∈ ast.nodes ∧ isTargetTypeKind node.kind = true ∧
         (nodeBlockKey node).blockId ≠ "" ∧
         (nodeBlockKey node).blockId ∉ blocks.map (fun b => b.id))) ∧
    (∀ (ast : ParserTree) (blocks : List BlockInfo) (node : Node),
      node.directives.find? (fun d => d.name = EVENT_MODELING_BLOCK) = none →
      node ∉ findOrphanedTypes ast blocks) ∧
    syncSchemaWithBlocks [] (stWith [exPayInput, exPayResult, exKeep]) =
      ⟨⟨generateSchemaFromAST ⟨[exKeep]⟩, none, "outside"⟩, none⟩ := by
  have hmem : ∀ (ast : ParserTree) (blocks : List BlockInfo) (node : Node),
      node ∈ findOrphanedTypes ast blocks ↔
        (node ∈ ast.nodes ∧ isTargetTypeKind node.kind = true ∧
         (nodeBlockKey node).blockId ≠ "" ∧
         (nodeBlockKey node).blockId ∉ blocks.map (fun b => b.id)) := by
    intro ast blocks node
    simp [findOrphanedTypes, List.mem_filter, and_assoc]
  refine ⟨hmem, ?_, ?_⟩
  · intro ast blocks node h hmem2
    have := ((hmem ast blocks node).mp hmem2).2.2.1
    rw [nodeBlockKey_no_directive node h] at this
    exact this rfl
  · decide

theorem C4_orphan_detector_witness :
    exKeep ∉ findOrphanedTypes ⟨[exPayInput, exPayResult, exKeep]⟩ [] :=
  C4_orphan_detector.2.1 ⟨[exPayInput, exPayResult, exKeep]⟩ [] exKeep (by decide)

theorem strData_append (s t : String) : (s ++ t).data = s.data ++ t.data := rfl

theorem stripQuotes_quoteStr (s : String) : stripQuotes (quoteStr s) = s := by
  have hdata : (quoteStr s).data = '"' :: (s.data ++ ['"']) := by
    show ("\"" ++ s ++ "\"").data = _
    rw [strData_append, strData_append]
    rfl
  have hcond : 2 ≤ (quoteStr s).length ∧ strStartsWith (quoteStr s) "\"" ∧
      strEndsWith (quoteStr s) "\"" := by
    refine ⟨?_, ?_, ?_⟩
    · show 2 ≤ (quoteStr s).data.length
      rw [hdata]
      simp
    · show (("\"" : String).data).isPrefixOf (quoteStr s).data = true
      rw [hdata]
      simp [List.isPrefixOf]
    · show (("\"" : String).data).isSuffixOf (quoteStr s).data = true
      apply List.isSuffixOf_iff_suffix.mpr
      rw [hdata]
      exact ⟨'"' :: s.data, by simp⟩
  unfold stripQuotes
  rw [if_pos hcond]
  unfold strDrop strDropRight
  rw [hdata]
  have h1 : ('"' :: (s.data ++ ['"'])).drop 1 = s.data ++ ['"'] := rfl
  rw [h1]
  show String.mk ((s.data ++ ['"']).take ((s.data ++ ['"']).length - 1)) = s
  have h2 : (s.data ++ ['"']).length - 1 = s.data.length := by
    simp
  rw [h2, List.take_left, strMk_data]

theorem nodeBlockKey_addedNode (tn bt bid ety : String) (hb : bid ≠ "") (he : ety ≠ "") :
    nodeBlockKey (addedNode tn bt bid ety) = ⟨bid, ety⟩ := by
  have h1 : getDirectiveArg ((addedNode tn bt bid ety).directives.find?
      (fun d => d.name = EVENT_MODELING_BLOCK)) ARG_BLOCK_ID = stripQuotes (quoteStr bid) := rfl
  have h2 : getDirectiveArg ((addedNode tn bt bid ety).directives.find?
      (fun d => d.name = EVENT_MODELING_BLOCK)) ARG_BLOCK_ENTITY_TYPE =
      stripQuotes (quoteStr ety) := rfl
  unfold nodeBlockKey getBlockIdAndEntityTypeFromDirective
  rw [h1, h2, stripQuotes_quoteStr, stripQuotes_quoteStr, if_pos ⟨hb, he⟩]

set_option maxRecDepth 40000 in
/-- C7: every addition synthesizes a new object type node with the required
name, an identity directive carrying the block's id, the entity role and
version 1, and a default field set containing an identifier field for every
block kind plus a timestamp field exactly when the kind is event; syncing
blocks [b1 "Checkout" event] from an empty document yields exactly one managed
type Checkout with an identifier field and that identity directive. -/
theorem C7_addition_defaults :
    (∀ (ast : ParserTree) (tn bt bid ety : String),
      (addTypeToAST ast tn bt bid ety).nodes = ast.nodes ++ [addedNode tn bt bid ety] ∧
      (addedNode tn bt bid ety).name = tn ∧
      (addedNode tn bt bid ety).kind = TypeDefKind.objectType ∧
      (bid ≠ "" → ety ≠ "" → nodeBlockKey (addedNode tn bt bid ety) = ⟨bid, ety⟩) ∧
      getDirectiveArg ((addedNode tn bt bid ety).directives.find?
        (fun d => d.name = EVENT_MODELING_BLOCK)) "version" = "1" ∧
      (⟨"id", ⟨"ID", true⟩⟩ : Field) ∈ (addedNode tn bt bid ety).fields ∧
      ((⟨"timestamp", ⟨"String", true⟩⟩ : Field) ∈ (addedNode tn bt bid ety).fields ↔
        bt = "event")) ∧
    syncSchemaWithBlocks [⟨"b1", "Checkout", "event"⟩] ⟨⟨"", none, "outside"⟩, none⟩ =
      ⟨⟨generateSchemaFromAST ⟨[exCheckout]⟩, none, "outside"⟩, none⟩ ∧
    parseSchemaToAST (generateSchemaFromAST ⟨[exCheckout]⟩) = Except.ok ⟨[exCheckout]⟩ ∧
    exCheckout = addedNode "Checkout" "event" "b1" "block" ∧
    nodeBlockKey exCheckout = ⟨"b1", BLOCK_ENTITY_BLOCK⟩ ∧
    getDirectiveArg (exCheckout.directives.find? (fun d => d.name = EVENT_MODELING_BLOCK))
      "version" = "1" := by
  refine ⟨?_, by decide, by decide, by decide, by decide, by decide⟩
  intro ast tn bt bid ety
  refine ⟨rfl, rfl, rfl, nodeBlockKey_addedNode tn bt bid ety, rfl, ?_, ?_⟩
  · show (⟨"id", ⟨"ID", true⟩⟩ : Field) ∈
      [(⟨"id", ⟨"ID", true⟩⟩ : Field)] ++ (if bt = "event" then [⟨"timestamp", ⟨"String", true⟩⟩] else [])
    simp
  · show (⟨"timestamp", ⟨"String", true⟩⟩ : Field) ∈
      [(⟨"id", ⟨"ID", true⟩⟩ : Field)] ++ (if bt = "event" then [⟨"timestamp", ⟨"String", true⟩⟩] else [])
      ↔ bt = "event"
    by_cases h : bt = "event" <;> simp [h]

theorem C7_addition_defaults_witness :
    (addTypeToAST ⟨[exKeep]⟩ "PayInput" "command" "b1" "input").nodes =
      [exKeep, addedNode "PayInput" "command" "b1" "input"] ∧
    nodeBlockKey (addedNode "PayInput" "command" "b1" "input") = ⟨"b1", "input"⟩ := by
  obtain ⟨h1, _, _, h4, _, _, _⟩ :=
    C7_addition_defaults.1 ⟨[exKeep]⟩ "PayInput" "command" "b1" "input"
  exact ⟨h1, h4 (by decide) (by decide)⟩

set_option maxRecDepth 40000 in
/-- C5: a parse failure during sync is caught inside sync and the held
document is retained unchanged (same text, libraries and provenance); and sync
is atomic — every call either leaves the state untouched or stores the
serialization of the whole plan applied to the parsed document, with
provenance "outside". -/
theorem C5_sync_parse_failure_and_atomicity :
    (∀ (blocks : List BlockInfo) (st : SchemaProviderState) (e : String),
      parseSchemaToAST st.schema.code = Except.error e → syncSchemaWithBlocks blocks st = st) ∧
    (∀ (blocks : List BlockInfo) (st : SchemaProviderState),
      syncSchemaWithBlocks blocks st = st ∨
      ∃ ast, parseSchemaToAST st.schema.code = Except.ok ast ∧
        syncSchemaWithBlocks blocks st =
          ⟨⟨generateSchemaFromAST (applyChangePlan ast (computePlan blocks ast)), none,
            "outside"⟩, none⟩) := by
  constructor
  · intro blocks st e h
    unfold syncSchemaWithBlocks
    rw [h]
  · intro blocks st
    unfold syncSchemaWithBlocks
    cases hp : parseSchemaToAST st.schema.code with
    | error e => exact Or.inl rfl
    | ok ast =>
      by_cases hc : 0 < (computePlan blocks ast).typesToAdd.length ∨
          0 < (computePlan blocks ast).typesToRename.length ∨
          0 < (computePlan blocks ast).typesToRemove.length
      · refine Or.inr ⟨ast, rfl, ?_⟩
        show (if 0 < (computePlan blocks ast).typesToAdd.length ∨
              0 < (computePlan blocks ast).typesToRename.length ∨
              0 < (computePlan blocks ast).typesToRemove.length then
            updateSchema ⟨generateSchemaFromAST (applyChangePlan ast (computePlan blocks ast)),
              none, "outside"⟩ st
          else st) =
          ⟨⟨generateSchemaFromAST (applyChangePlan ast (computePlan blocks ast)), none,
            "outside"⟩, none⟩
        rw [if_pos hc]
        rfl
      · refine Or.inl ?_
        show (if 0 < (computePlan blocks ast).typesToAdd.length ∨
              0 < (computePlan blocks ast).typesToRename.length ∨
              0 < (computePlan blocks ast).typesToRemove.length then
            updateSchema ⟨generateSchemaFromAST (applyChangePlan ast (computePlan blocks ast)),
              none, "outside"⟩ st
          else st) = st
        rw [if_neg hc]

theorem C5_sync_parse_failure_and_atomicity_witness :
    syncSchemaWithBlocks [⟨"b1", "Checkout", "event"⟩] ⟨⟨"type", some "lib", "code"⟩, none⟩ =
      ⟨⟨"type", some "lib", "code"⟩, none⟩ :=
  C5_sync_parse_failure_and_atomicity.1 [⟨"b1", "Checkout", "event"⟩]
    ⟨⟨"type", some "lib", "code"⟩, none⟩ "Schema parsing failed" (by decide)

theorem foldl_analyzeStep (block : BlockInfo) (m : List (String × Node))
    (entries : List TypeEntry) (acc : SchemaChangePlan) :
    entries.foldl (analyzeStep block m) acc =
      ⟨acc.typesToAdd ++ entries.filterMap (addOfKey block m),
       acc.typesToRename ++ entries.filterMap (renOfKey block m),
       acc.typesToRemove⟩ := by
  induction entries generalizing acc with
  | nil => simp
  | cons e rest ih =>
    rw [List.foldl_cons, ih]
    cases hm : jsMapGet m (keyString block.id e.blockEntityType) with
    | none => simp [analyzeStep, addOfKey, renOfKey, hm, List.filterMap_cons]
    | some t =>
      by_cases hn : t.name = e.typeName
      · simp [analyzeStep, addOfKey, renOfKey, hm, hn, List.filterMap_cons]
      · simp [analyzeStep, addOfKey, renOfKey, hm, hn, List.filterMap_cons]

theorem analyzeBlockSchemaChanges_eq (block : BlockInfo) (ast : ParserTree) :
    analyzeBlockSchemaChanges block ast =
      ⟨(getBlockTypeEntries block).filterMap (addOfEntry block ast),
       (getBlockTypeEntries block).filterMap (renOfEntry block ast),
       []⟩ := by
  unfold analyzeBlockSchemaChanges addOfEntry renOfEntry
  rw [foldl_analyzeStep]
  rfl

theorem renameNodeFun_fields_clean (oldName newName : String) (node : Node)
    (h : oldName ≠ newName) (hn : node.name ≠ oldName) :
    ∀ f ∈ (renameNodeFun oldName newName node).fields, f.type.base ≠ oldName := by
  intro f hf
  unfold renameNodeFun at hf
  rw [if_neg hn] at hf
  rcases List.mem_map.mp hf with ⟨g, _, rfl⟩
  unfold updateFieldTypeReferences getTypeName
  by_cases hb : g.type.base = oldName
  · rw [if_pos hb]
    exact fun hh => h hh.symm
  · rw [if_neg hb]
    exact hb

set_option maxRecDepth 100000 in
/-- C3: a managed type matching a required (blockId, entityRole) key under a
different name yields a rename in the plan (not an addition, and the analysis
emits no removals); the applier rewrites field type references to the old name
in every other node; and the concrete command-block retitle from
"User Registration" to "User Signup" renames both types in place, preserving
blockId and fields, with no UserRegistration* type left. -/
theorem C3_identity_stability_under_rename :
    (∀ (block : BlockInfo) (ast : ParserTree), ∀ e ∈ getBlockTypeEntries block, ∀ m : Node,
      lookupEntry block ast e = some m → m.name ≠ e.typeName →
        renOfEntry block ast e =
          some ⟨m.name, e.typeName, keyString block.id e.blockEntityType⟩ ∧
        addOfEntry block ast e = none ∧
        (⟨m.name, e.typeName, keyString block.id e.blockEntityType⟩ : TypeToRename) ∈
          (analyzeBlockSchemaChanges block ast).typesToRename ∧
        (analyzeBlockSchemaChanges block ast).typesToRemove = []) ∧
    (∀ (oldName newName : String) (node : Node), oldName ≠ newName →
      (renameNodeFun oldName newName node).name ≠ oldName ∧
      (node.name ≠ oldName →
        ∀ f ∈ (renameNodeFun oldName newName node).fields, f.type.base ≠ oldName)) ∧
    (∀ (ast : ParserTree) (oldName newName : String),
      (renameTypeInAST ast oldName newName).nodes = ast.nodes.map (renameNodeFun oldName newName)) ∧
    syncSchemaWithBlocks [⟨"b1", "User Signup", "command"⟩]
        (syncSchemaWithBlocks [⟨"b1", "User Registration", "command"⟩] ⟨⟨"", none, "outside"⟩, none⟩) =
      ⟨⟨generateSchemaFromAST ⟨[
        { addedNode "UserRegistrationInput" "command" "b1" "input" with name := "UserSignupInput" },
        { addedNode "UserRegistrationCommandResult" "command" "b1" "result" with
            name := "UserSignupCommandResult" }]⟩, none, "outside"⟩, none⟩ ∧
    nodeBlockKey { addedNode "UserRegistrationInput" "command" "b1" "input" with
        name := "UserSignupInput" } = ⟨"b1", "input"⟩ ∧
    nodeBlockKey { addedNode "UserRegistrationCommandResult" "command" "b1" "result" with
        name := "UserSignupCommandResult" } = ⟨"b1", "result"⟩ := by
  refine ⟨?_, ?_, fun ast o n => rfl, by decide, by decide, by decide⟩
  · intro block ast e he m hl hn
    have hren : renOfEntry block ast e =
        some ⟨m.name, e.typeName, keyString block.id e.blockEntityType⟩ := by
      unfold renOfEntry renOfKey
      unfold lookupEntry at hl
      rw [hl]
      simp [hn]
    have hadd : addOfEntry block ast e = none := by
      unfold addOfEntry addOfKey
      unfold lookupEntry at hl
      rw [hl]
    refine ⟨hren, hadd, ?_, ?_⟩
    · rw [analyzeBlockSchemaChanges_eq]
      exact List.mem_filterMap.mpr ⟨e, he, hren⟩
    · rw [analyzeBlockSchemaChanges_eq]
  · intro oldName newName node h
    constructor
    · unfold renameNodeFun
      by_cases hn : node.name = oldName
      · rw [if_pos hn]
        exact fun hh => h hh.symm
      · rw [if_neg hn]
        exact hn
    · exact renameNodeFun_fields_clean oldName newName node h

theorem C3_identity_stability_under_rename_witness :
    renOfEntry ⟨"b1", "User Signup", "command"⟩
        ⟨[addedNode "UserRegistrationInput" "command" "b1" "input",
          addedNode "UserRegistrationCommandResult" "command" "b1" "result"]⟩
        ⟨"UserSignupInput", "input"⟩ =
      some ⟨"UserRegistrationInput", "UserSignupInput", keyString "b1" "input"⟩ ∧
    (renameNodeFun "UserRegistrationInput" "UserSignupInput" exKeep).name ≠
      "UserRegistrationInput" := by
  constructor
  · exact (C3_identity_stability_under_rename.1 ⟨"b1", "User Signup", "command"⟩
      ⟨[addedNode "UserRegistrationInput" "command" "b1" "input",
        addedNode "UserRegistrationCommandResult" "command" "b1" "result"]⟩
      ⟨"UserSignupInput", "input"⟩ (by decide)
      (addedNode "UserRegistrationInput" "command" "b1" "input") (by decide) (by decide)).1
  · exact (C3_identity_stability_under_rename.2.1 "UserRegistrationInput" "UserSignupInput"
      exKeep (by decide)).1

theorem takeWhile_append_stop (p : Char → Bool) (xs ys : List Char)
    (hx : ∀ c ∈ xs, p c = true) (hy : ∀ c, ys.head? = some c → p c = false) :
    (xs ++ ys).takeWhile p = xs ∧ (xs ++ ys).dropWhile p = ys := by
  induction xs with
  | nil =>
    simp only [List.nil_append]
    cases ys with
    | nil => simp
    | cons y t =>
      have hp := hy y rfl
      simp [List.takeWhile_cons, List.dropWhile_cons, hp]
  | cons x xs ih =>
    have hpx := hx x (by simp)
    have hih := ih (fun c hc => hx c (by simp [hc]))
    simp [List.takeWhile_cons, List.dropWhile_cons, hpx, hih.1, hih.2]

theorem expectPrefix_append (p rest : List Char) : expectPrefix p (p ++ rest) = some rest := by
  induction p with
  | nil => rfl
  | cons c t ih => simp [expectPrefix, ih]

theorem valueWF_shape (v : String) (h : valueWF v = true) :
    (∃ mid, v.data = '"' :: (mid ++ ['"']) ∧ ∀ c ∈ mid, ¬(c = '"')) ∨
    (v.data ≠ [] ∧ (∀ c ∈ v.data, isIdentChar c = true)) := by
  unfold valueWF at h
  split at h
  · rename_i rest heq
    left
    simp only [Bool.and_eq_true, Bool.not_eq_true', List.isEmpty_eq_false, decide_eq_true_eq,
      List.all_eq_true] at h
    obtain ⟨⟨hne, hlast⟩, hmid⟩ := h
    refine ⟨rest.dropLast, ?_, fun c hc => by simpa using hmid c hc⟩
    rw [heq]
    congr 1
    have hgl : rest.getLast hne = '"' := by
      have h2 := List.getLast?_eq_getLast rest hne
      rw [h2] at hlast
      exact Option.some.inj hlast
    conv_lhs => rw [← List.dropLast_append_getLast hne, hgl]
  · rename_i heq
    right
    simp only [Bool.and_eq_true, Bool.not_eq_true', List.isEmpty_eq_false,
      List.all_eq_true] at h
    exact h
theorem parseRawValue_serialize (v : String) (rest : List Char) (h : valueWF v = true)
    (hr : ∀ c, rest.head? = some c → isIdentChar c = false) :
    parseRawValue (v.data ++ rest) = some (v, rest) := by
  rcases valueWF_shape v h with ⟨mid, hv, hmid⟩ | ⟨hne, hid⟩
  · rw [hv]
    have harr : ('"' :: (mid ++ ['"'])) ++ rest = '"' :: (mid ++ ('"' :: rest)) := by simp
    rw [harr]
    have hstop := takeWhile_append_stop (fun x => !(x = '"')) mid ('"' :: rest)
      (fun c hc => by simp [hmid c hc])
      (fun c hc => by
        simp only [List.head?_cons, Option.some.injEq] at hc
        simp [← hc])
    show (match (mid ++ ('"' :: rest)).dropWhile (fun x => !(x = '"')) with
      | '"' :: rest2 =>
        some (String.mk ('"' :: ((mid ++ ('"' :: rest)).takeWhile (fun x => !(x = '"')) ++ ['"'])), rest2)
      | _ => none) = some (v, rest)
    rw [hstop.1, hstop.2]
    show some (String.mk ('"' :: (mid ++ ['"'])), rest) = some (v, rest)
    rw [← hv, strMk_data]
  · cases hv : v.data with
    | nil => exact absurd hv hne
    | cons c cs =>
      have hcid : isIdentChar c = true := hid c (by rw [hv]; simp)
      have hcq : ¬(c = '"') := by
        intro hh
        rw [hh] at hcid
        simp [isIdentChar] at hcid
      have harr : (c :: cs) ++ rest = c :: (cs ++ rest) := by simp
      rw [harr]
      have hstop := takeWhile_append_stop isIdentChar (c :: cs) rest
        (fun x hx => hid x (by rw [hv]; exact hx))
        (fun x hx => hr x hx)
      show (if c = '"' then _ else
        if (c :: (cs ++ rest)).takeWhile isIdentChar = [] then none
        else some (String.mk ((c :: (cs ++ rest)).takeWhile isIdentChar),
          (c :: (cs ++ rest)).dropWhile isIdentChar)) = some (v, rest)
      rw [if_neg hcq]
      rw [show c :: (cs ++ rest) = (c :: cs) ++ rest from rfl, hstop.1, hstop.2]
      rw [if_neg (by simp)]
      rw [← hv, strMk_data]
theorem nameWF_shape (s : String) (h : nameWF s = true) :
    s.data ≠ [] ∧ ∀ c ∈ s.data, isIdentChar c = true := by
  unfold nameWF at h
  simp only [Bool.and_eq_true, Bool.not_eq_true', List.isEmpty_eq_false, List.all_eq_true] at h
  exact h

theorem name_split (s : String) (cont : List Char) (h : nameWF s = true)
    (hc : ∀ c, cont.head? = some c → isIdentChar c = false) :
    (s.data ++ cont).takeWhile isIdentChar = s.data ∧
    (s.data ++ cont).dropWhile isIdentChar = cont :=
  takeWhile_append_stop isIdentChar s.data cont (nameWF_shape s h).2 hc

theorem parseArgs_serialize (args : List DirArg) (rest : List Char) (fuel : Nat)
    (hwf : args.all argWF = true) (hne : args ≠ []) (hfuel : args.length ≤ fuel) :
    parseArgs fuel (serializeArgsChars args ++ ')' :: rest) = some (args, rest) := by
  induction args generalizing fuel rest with
  | nil => exact absurd rfl hne
  | cons a t ih =>
    have hawf : argWF a = true := List.all_eq_true.mp hwf a (by simp)
    obtain ⟨hnm, hvw⟩ : nameWF a.name = true ∧ valueWF a.value = true := by
      simpa [argWF] using hawf
    cases fuel with
    | zero => simp at hfuel
    | succ f =>
      cases t with
      | nil =>
        have harr : serializeArgsChars [a] ++ ')' :: rest =
            a.name.data ++ (':' :: ' ' :: (a.value.data ++ ')' :: rest)) := by
          show serializeArgChars a ++ ')' :: rest = _
          unfold serializeArgChars
          simp
        rw [harr]
        have hsplit := name_split a.name (':' :: ' ' :: (a.value.data ++ ')' :: rest)) hnm
          (fun c hc => by
            simp only [List.head?_cons, Option.some.injEq] at hc
            simp [← hc, isIdentChar])
        show (if (a.name.data ++ (':' :: ' ' :: (a.value.data ++ ')' :: rest))).takeWhile isIdentChar = []
            then none
            else match expectPrefix [':', ' ']
                ((a.name.data ++ (':' :: ' ' :: (a.value.data ++ ')' :: rest))).dropWhile isIdentChar) with
              | none => none
              | some cs2 =>
                match parseRawValue cs2 with
                | none => none
                | some (v, cs3) =>
                  match cs3 with
                  | ')' :: cs4 => some ([⟨String.mk ((a.name.data ++ (':' :: ' ' :: (a.value.data ++ ')' :: rest))).takeWhile isIdentChar), v⟩], cs4)
                  | ',' :: ' ' :: cs4 =>
                    (match parseArgs f cs4 with
                     | some (args, cs5) => some (⟨String.mk ((a.name.data ++ (':' :: ' ' :: (a.value.data ++ ')' :: rest))).takeWhile isIdentChar), v⟩ :: args, cs5)
                     | none => none)
                  | _ => none) = some ([a], rest)
        rw [hsplit.1, hsplit.2, if_neg (nameWF_shape a.name hnm).1]
        have hval : parseRawValue (a.value.data ++ ')' :: rest) = some (a.value, ')' :: rest) :=
          parseRawValue_serialize a.value (')' :: rest) hvw
            (fun c hc => by
              simp only [List.head?_cons, Option.some.injEq] at hc
              simp [← hc, isIdentChar])
        simp only [show (':' :: ' ' :: (a.value.data ++ ')' :: rest)) =
          [':', ' '] ++ (a.value.data ++ ')' :: rest) from rfl, expectPrefix_append, hval,
          strMk_data]
      | cons b t2 =>
        have harr : serializeArgsChars (a :: b :: t2) ++ ')' :: rest =
            a.name.data ++ (':' :: ' ' :: (a.value.data ++
              (',' :: ' ' :: (serializeArgsChars (b :: t2) ++ ')' :: rest)))) := by
          show (serializeArgChars a ++ ',' :: ' ' :: serializeArgsChars (b :: t2)) ++ ')' :: rest = _
          unfold serializeArgChars
          simp
        rw [harr]
        have hsplit := name_split a.name
          (':' :: ' ' :: (a.value.data ++ (',' :: ' ' :: (serializeArgsChars (b :: t2) ++ ')' :: rest)))) hnm
          (fun c hc => by
            simp only [List.head?_cons, Option.some.injEq] at hc
            simp [← hc, isIdentChar])
        show (if (a.name.data ++ (':' :: ' ' :: (a.value.data ++ (',' :: ' ' :: (serializeArgsChars (b :: t2) ++ ')' :: rest))))).takeWhile isIdentChar = []
            then none
            else match expectPrefix [':', ' ']
                ((a.name.data ++ (':' :: ' ' :: (a.value.data ++ (',' :: ' ' :: (serializeArgsChars (b :: t2) ++ ')' :: rest))))).dropWhile isIdentChar) with
              | none => none
              | some cs2 =>
                match parseRawValue cs2 with
                | none => none
                | some (v, cs3) =>
                  match cs3 with
                  | ')' :: cs4 => some ([⟨String.mk ((a.name.data ++ (':' :: ' ' :: (a.value.data ++ (',' :: ' ' :: (serializeArgsChars (b :: t2) ++ ')' :: rest))))).takeWhile isIdentChar), v⟩], cs4)
                  | ',' :: ' ' :: cs4 =>
                    (match parseArgs f cs4 with
                     | some (args, cs5) => some (⟨String.mk ((a.name.data ++ (':' :: ' ' :: (a.value.data ++ (',' :: ' ' :: (serializeArgsChars (b :: t2) ++ ')' :: rest))))).takeWhile isIdentChar), v⟩ :: args, cs5)
                     | none => none)
                  | _ => none) = some (a :: b :: t2, rest)
        rw [hsplit.1, hsplit.2, if_neg (nameWF_shape a.name hnm).1]
        have hval : parseRawValue (a.value.data ++ (',' :: ' ' :: (serializeArgsChars (b :: t2) ++ ')' :: rest))) =
            some (a.value, ',' :: ' ' :: (serializeArgsChars (b :: t2) ++ ')' :: rest)) :=
          parseRawValue_serialize a.value _ hvw
            (fun c hc => by
              simp only [List.head?_cons, Option.some.injEq] at hc
              simp [← hc, isIdentChar])
        have hih : parseArgs f (serializeArgsChars (b :: t2) ++ ')' :: rest) = some (b :: t2, rest) := by
          apply ih
          · simp only [List.all_cons, Bool.and_eq_true] at hwf ⊢
            exact hwf.2
          · simp
          · simp at hfuel ⊢
            omega
        simp only [show (':' :: ' ' :: (a.value.data ++ (',' :: ' ' :: (serializeArgsChars (b :: t2) ++ ')' :: rest)))) =
          [':', ' '] ++ (a.value.data ++ (',' :: ' ' :: (serializeArgsChars (b :: t2) ++ ')' :: rest))) from rfl,
          expectPrefix_append, hval, hih, strMk_data]
theorem serializeDirectivesChars_cons (d : Directive) (t : List Directive) (rest : List Char) :
    ∃ tail2, serializeDirectivesChars (d :: t) ++ rest = ' ' :: '@' :: tail2 := by
  refine ⟨d.name.data ++ ((match d.args with
    | [] => []
    | _ => '(' :: serializeArgsChars d.args ++ [')']) ++ (serializeDirectivesChars t ++ rest)), ?_⟩
  show (serializeDirectiveChars d ++ serializeDirectivesChars t) ++ rest = _
  unfold serializeDirectiveChars
  simp

theorem parseDirectives_serialize (ds : List Directive) (rest : List Char) (fuel : Nat)
    (hwf : ds.all directiveWF = true)
    (hhead : ∀ c, rest.head? = some c → isIdentChar c = false ∧ ¬(c = '('))
    (hat : ∀ c2 cs2, rest = ' ' :: c2 :: cs2 → ¬(c2 = '@'))
    (hfuel : dirLoad ds ≤ fuel) :
    parseDirectives fuel (serializeDirectivesChars ds ++ rest) = some (ds, rest) := by
  induction ds generalizing fuel with
  | nil =>
    cases fuel with
    | zero => simp [dirLoad] at hfuel
    | succ f =>
      show parseDirectives (f + 1) rest = some ([], rest)
      unfold parseDirectives
      split
      · rename_i c1 c2 cs1
        rw [if_neg]
        rintro ⟨rfl, rfl⟩
        exact hat '@' cs1 rfl rfl
      · rfl
  | cons d t ih =>
    obtain ⟨dnm, dargs⟩ := d
    have hdwf : directiveWF ⟨dnm, dargs⟩ = true := List.all_eq_true.mp hwf _ (by simp)
    obtain ⟨hnm, hargswf⟩ : nameWF dnm = true ∧ dargs.all argWF = true := by
      simpa [directiveWF] using hdwf
    have htwf : t.all directiveWF = true := by
      simp only [List.all_cons, Bool.and_eq_true] at hwf
      exact hwf.2
    cases fuel with
    | zero => simp [dirLoad] at hfuel
    | succ f =>
      have hfa : argsLoad dargs ≤ f := by
        simp [dirLoad] at hfuel
        omega
      have hft : dirLoad t ≤ f := by
        simp [dirLoad] at hfuel
        omega
      have hih : parseDirectives f (serializeDirectivesChars t ++ rest) = some (t, rest) :=
        ih f htwf hft
      have hcont : ∀ c, (serializeDirectivesChars t ++ rest).head? = some c →
          isIdentChar c = false := by
        cases t with
        | nil =>
          intro c hc
          exact (hhead c (by simpa [serializeDirectivesChars] using hc)).1
        | cons d2 t2 =>
          intro c hc
          obtain ⟨tail2, htl⟩ := serializeDirectivesChars_cons d2 t2 rest
          rw [htl] at hc
          injection hc with hc
          simp [← hc, isIdentChar]
      have hnotparen : ∀ cs3, serializeDirectivesChars t ++ rest = '(' :: cs3 → False := by
        intro cs3 heq
        cases t with
        | nil =>
          simp only [serializeDirectivesChars, List.map_nil, List.flatten_nil,
            List.nil_append] at heq
          exact (hhead '(' (by rw [heq]; rfl)).2 rfl
        | cons d2 t2 =>
          obtain ⟨tail2, htl⟩ := serializeDirectivesChars_cons d2 t2 rest
          rw [htl] at heq
          simp at heq
      cases dargs with
      | nil =>
        have harr : serializeDirectivesChars (⟨dnm, []⟩ :: t) ++ rest =
            ' ' :: '@' :: (dnm.data ++ (serializeDirectivesChars t ++ rest)) := by
          show (serializeDirectiveChars ⟨dnm, []⟩ ++ serializeDirectivesChars t) ++ rest = _
          unfold serializeDirectiveChars
          simp
        rw [harr]
        have hsplit := takeWhile_append_stop isIdentChar dnm.data (serializeDirectivesChars t ++ rest)
          (nameWF_shape dnm hnm).2 hcont
        show (if (dnm.data ++ (serializeDirectivesChars t ++ rest)).takeWhile isIdentChar = [] then none
          else match (dnm.data ++ (serializeDirectivesChars t ++ rest)).dropWhile isIdentChar with
            | '(' :: cs3 =>
              (match parseArgs f cs3 with
               | some (args, cs4) =>
                 (match parseDirectives f cs4 with
                  | some (ds, cs5) => some (⟨String.mk ((dnm.data ++ (serializeDirectivesChars t ++ rest)).takeWhile isIdentChar), args⟩ :: ds, cs5)
                  | none => none)
               | none => none)
            | cs2 =>
              (match parseDirectives f cs2 with
               | some (ds, cs5) => some (⟨String.mk ((dnm.data ++ (serializeDirectivesChars t ++ rest)).takeWhile isIdentChar), []⟩ :: ds, cs5)
               | none => none)) = some (⟨dnm, []⟩ :: t, rest)
        rw [hsplit.1, hsplit.2, if_neg (nameWF_shape dnm hnm).1]
        split
        · rename_i cs3 heq
          exact absurd heq (fun h => hnotparen cs3 h)
        · rw [hih, strMk_data]
      | cons a as =>
        have harr : serializeDirectivesChars (⟨dnm, a :: as⟩ :: t) ++ rest =
            ' ' :: '@' :: (dnm.data ++ ('(' :: (serializeArgsChars (a :: as) ++
              ')' :: (serializeDirectivesChars t ++ rest)))) := by
          show (serializeDirectiveChars ⟨dnm, a :: as⟩ ++ serializeDirectivesChars t) ++ rest = _
          unfold serializeDirectiveChars
          simp
        rw [harr]
        have hsplit := takeWhile_append_stop isIdentChar dnm.data
          ('(' :: (serializeArgsChars (a :: as) ++ ')' :: (serializeDirectivesChars t ++ rest)))
          (nameWF_shape dnm hnm).2
          (fun c hc => by
            simp only [List.head?_cons, Option.some.injEq] at hc
            simp [← hc, isIdentChar])
        show (if (dnm.data ++ ('(' :: (serializeArgsChars (a :: as) ++ ')' :: (serializeDirectivesChars t ++ rest)))).takeWhile isIdentChar = [] then none
          else match (dnm.data ++ ('(' :: (serializeArgsChars (a :: as) ++ ')' :: (serializeDirectivesChars t ++ rest)))).dropWhile isIdentChar with
            | '(' :: cs3 =>
              (match parseArgs f cs3 with
               | some (args, cs4) =>
                 (match parseDirectives f cs4 with
                  | some (ds, cs5) => some (⟨String.mk ((dnm.data ++ ('(' :: (serializeArgsChars (a :: as) ++ ')' :: (serializeDirectivesChars t ++ rest)))).takeWhile isIdentChar), args⟩ :: ds, cs5)
                  | none => none)
               | none => none)
            | cs2 =>
              (match parseDirectives f cs2 with
               | some (ds, cs5) => some (⟨String.mk ((dnm.data ++ ('(' :: (serializeArgsChars (a :: as) ++ ')' :: (serializeDirectivesChars t ++ rest)))).takeWhile isIdentChar), []⟩ :: ds, cs5)
               | none => none)) = some (⟨dnm, a :: as⟩ :: t, rest)
        rw [hsplit.1, hsplit.2, if_neg (nameWF_shape dnm hnm).1]
        have hargs : parseArgs f (serializeArgsChars (a :: as) ++ ')' :: (serializeDirectivesChars t ++ rest)) =
            some (a :: as, serializeDirectivesChars t ++ rest) :=
          parseArgs_serialize (a :: as) (serializeDirectivesChars t ++ rest) f hargswf (by simp) hfa
        simp only [hargs, hih, strMk_data]
theorem parseFields_serialize (fs : List Field) (rest : List Char) (fuel : Nat)
    (hwf : fs.all fieldWF = true) (hfuel : fs.length + 1 ≤ fuel) :
    parseFields fuel ((fs.map serializeFieldChars).flatten ++ '\x7d' :: '\n' :: rest) =
      some (fs, rest) := by
  induction fs generalizing fuel with
  | nil =>
    cases fuel with
    | zero => omega
    | succ f => rfl
  | cons fld t ih =>
    obtain ⟨fnm, fbase, freq⟩ := fld
    have hfwf : fieldWF ⟨fnm, fbase, freq⟩ = true := List.all_eq_true.mp hwf _ (by simp)
    obtain ⟨hnm, hbs⟩ : nameWF fnm = true ∧ nameWF fbase = true := by
      simpa [fieldWF] using hfwf
    have htwf : t.all fieldWF = true := by
      simp only [List.all_cons, Bool.and_eq_true] at hwf
      exact hwf.2
    cases fuel with
    | zero => omega
    | succ f =>
      have hih : parseFields f ((t.map serializeFieldChars).flatten ++ '\x7d' :: '\n' :: rest) =
          some (t, rest) := ih f htwf (by simp at hfuel ⊢; omega)
      cases freq with
      | true =>
        have harr : ((⟨fnm, fbase, true⟩ :: t : List Field).map serializeFieldChars).flatten ++
              '\x7d' :: '\n' :: rest =
            ' ' :: ' ' :: (fnm.data ++ (':' :: ' ' :: (fbase.data ++
              ('!' :: '\n' :: ((t.map serializeFieldChars).flatten ++ '\x7d' :: '\n' :: rest))))) := by
          show (serializeFieldChars ⟨fnm, fbase, true⟩ ++ (t.map serializeFieldChars).flatten) ++
            '\x7d' :: '\n' :: rest = _
          unfold serializeFieldChars serializeFieldTypeChars
          simp
        rw [harr]
        have hsplit1 := name_split fnm (':' :: ' ' :: (fbase.data ++
            ('!' :: '\n' :: ((t.map serializeFieldChars).flatten ++ '\x7d' :: '\n' :: rest)))) hnm
          (fun c hc => by
            simp only [List.head?_cons, Option.some.injEq] at hc
            simp [← hc, isIdentChar])
        have hsplit2 := name_split fbase
          ('!' :: '\n' :: ((t.map serializeFieldChars).flatten ++ '\x7d' :: '\n' :: rest)) hbs
          (fun c hc => by
            simp only [List.head?_cons, Option.some.injEq] at hc
            simp [← hc, isIdentChar])
        show (if (fnm.data ++ (':' :: ' ' :: (fbase.data ++ ('!' :: '\n' :: ((t.map serializeFieldChars).flatten ++ '\x7d' :: '\n' :: rest))))).takeWhile isIdentChar = [] then none
          else match expectPrefix [':', ' '] ((fnm.data ++ (':' :: ' ' :: (fbase.data ++ ('!' :: '\n' :: ((t.map serializeFieldChars).flatten ++ '\x7d' :: '\n' :: rest))))).dropWhile isIdentChar) with
            | none => none
            | some cs3 =>
              if cs3.takeWhile isIdentChar = [] then none
              else match cs3.dropWhile isIdentChar with
                | '!' :: '\n' :: cs5 =>
                  (match parseFields f cs5 with
                   | some (fs2, rest2) => some (⟨String.mk ((fnm.data ++ (':' :: ' ' :: (fbase.data ++ ('!' :: '\n' :: ((t.map serializeFieldChars).flatten ++ '\x7d' :: '\n' :: rest))))).takeWhile isIdentChar), ⟨String.mk (cs3.takeWhile isIdentChar), true⟩⟩ :: fs2, rest2)
                   | none => none)
                | '\n' :: cs5 =>
                  (match parseFields f cs5 with
                   | some (fs2, rest2) => some (⟨String.mk ((fnm.data ++ (':' :: ' ' :: (fbase.data ++ ('!' :: '\n' :: ((t.map serializeFieldChars).flatten ++ '\x7d' :: '\n' :: rest))))).takeWhile isIdentChar), ⟨String.mk (cs3.takeWhile isIdentChar), false⟩⟩ :: fs2, rest2)
                   | none => none)
                | _ => none) = some (⟨fnm, fbase, true⟩ :: t, rest)
        rw [hsplit1.1, hsplit1.2, if_neg (nameWF_shape fnm hnm).1]
        rw [show (':' :: ' ' :: (fbase.data ++ ('!' :: '\n' :: ((t.map serializeFieldChars).flatten ++ '\x7d' :: '\n' :: rest)))) = [':', ' '] ++ (fbase.data ++ ('!' :: '\n' :: ((t.map serializeFieldChars).flatten ++ '\x7d' :: '\n' :: rest))) from rfl, expectPrefix_append]
        simp only [hsplit2.1, hsplit2.2, if_neg (nameWF_shape fbase hbs).1, hih, strMk_data]
      | false =>
        have harr : ((⟨fnm, fbase, false⟩ :: t : List Field).map serializeFieldChars).flatten ++
              '\x7d' :: '\n' :: rest =
            ' ' :: ' ' :: (fnm.data ++ (':' :: ' ' :: (fbase.data ++
              ('\n' :: ((t.map serializeFieldChars).flatten ++ '\x7d' :: '\n' :: rest))))) := by
          show (serializeFieldChars ⟨fnm, fbase, false⟩ ++ (t.map serializeFieldChars).flatten) ++
            '\x7d' :: '\n' :: rest = _
          unfold serializeFieldChars serializeFieldTypeChars
          simp
        rw [harr]
        have hsplit1 := name_split fnm (':' :: ' ' :: (fbase.data ++
            ('\n' :: ((t.map serializeFieldChars).flatten ++ '\x7d' :: '\n' :: rest)))) hnm
          (fun c hc => by
            simp only [List.head?_cons, Option.some.injEq] at hc
            simp [← hc, isIdentChar])
        have hsplit2 := name_split fbase
          ('\n' :: ((t.map serializeFieldChars).flatten ++ '\x7d' :: '\n' :: rest)) hbs
          (fun c hc => by
            simp only [List.head?_cons, Option.some.injEq] at hc
            simp [← hc, isIdentChar])
        show (if (fnm.data ++ (':' :: ' ' :: (fbase.data ++ ('\n' :: ((t.map serializeFieldChars).flatten ++ '\x7d' :: '\n' :: rest))))).takeWhile isIdentChar = [] then none
          else match expectPrefix [':', ' '] ((fnm.data ++ (':' :: ' ' :: (fbase.data ++ ('\n' :: ((t.map serializeFieldChars).flatten ++ '\x7d' :: '\n' :: rest))))).dropWhile isIdentChar) with
            | none => none
            | some cs3 =>
              if cs3.takeWhile isIdentChar = [] then none
              else match cs3.dropWhile isIdentChar with
                | '!' :: '\n' :: cs5 =>
                  (match parseFields f cs5 with
                   | some (fs2, rest2) => some (⟨String.mk ((fnm.data ++ (':' :: ' ' :: (fbase.data ++ ('\n' :: ((t.map serializeFieldChars).flatten ++ '\x7d' :: '\n' :: rest))))).takeWhile isIdentChar), ⟨String.mk (cs3.takeWhile isIdentChar), true⟩⟩ :: fs2, rest2)
                   | none => none)
                | '\n' :: cs5 =>
                  (match parseFields f cs5 with
                   | some (fs2, rest2) => some (⟨String.mk ((fnm.data ++ (':' :: ' ' :: (fbase.data ++ ('\n' :: ((t.map serializeFieldChars).flatten ++ '\x7d' :: '\n' :: rest))))).takeWhile isIdentChar), ⟨String.mk (cs3.takeWhile isIdentChar), false⟩⟩ :: fs2, rest2)
                   | none => none)
                | _ => none) = some (⟨fnm, fbase, false⟩ :: t, rest)
        rw [hsplit1.1, hsplit1.2, if_neg (nameWF_shape fnm hnm).1]
        rw [show (':' :: ' ' :: (fbase.data ++ ('\n' :: ((t.map serializeFieldChars).flatten ++ '\x7d' :: '\n' :: rest)))) = [':', ' '] ++ (fbase.data ++ ('\n' :: ((t.map serializeFieldChars).flatten ++ '\x7d' :: '\n' :: rest))) from rfl, expectPrefix_append]
        simp only [hsplit2.1, hsplit2.2, if_neg (nameWF_shape fbase hbs).1, hih, strMk_data]
theorem dirs_cont_head (ds : List Directive) (c0 : Char) (Y : List Char)
    (h0 : isIdentChar c0 = false) :
    ∀ c, (serializeDirectivesChars ds ++ (c0 :: Y)).head? = some c → isIdentChar c = false := by
  intro c hc
  cases ds with
  | nil =>
    simp only [serializeDirectivesChars, List.map_nil, List.flatten_nil, List.nil_append,
      List.head?_cons, Option.some.injEq] at hc
    rw [← hc]
    exact h0
  | cons d t =>
    obtain ⟨tail2, htl⟩ := serializeDirectivesChars_cons d t (c0 :: Y)
    rw [htl] at hc
    injection hc with hc
    simp [← hc, isIdentChar]

theorem parseNode_serialize (n : Node) (rest : List Char) (fuel : Nat)
    (hwf : nodeWF n = true) (hfuel : nodeLoad n ≤ fuel) :
    parseNode fuel (serializeNodeChars n ++ rest) = some (n, rest) := by
  obtain ⟨nm, kind, fs, ds⟩ := n
  obtain ⟨⟨⟨hnm, hfswf⟩, hdswf⟩, hsc⟩ :
      ((nameWF nm = true ∧ fs.all fieldWF = true) ∧ ds.all directiveWF = true) ∧
        (¬(kind = TypeDefKind.scalarType) ∨ fs = []) := by
    have h := hwf
    unfold nodeWF at h
    simp only [Bool.and_eq_true, Bool.or_eq_true, Bool.not_eq_true', decide_eq_true_eq,
      List.isEmpty_iff] at h
    obtain ⟨⟨⟨h1, h2⟩, h3⟩, h4⟩ := h
    refine ⟨⟨⟨h1, h2⟩, h3⟩, ?_⟩
    rcases h4 with h4 | h4
    · left
      intro hk
      rw [hk] at h4
      simp at h4
    · right
      exact h4
  have hfd : dirLoad ds ≤ fuel := le_trans (le_max_left _ _) hfuel
  have hff : fs.length + 1 ≤ fuel := le_trans (le_max_right _ _) hfuel
  cases kind with
  | objectType =>
    have harr : serializeNodeChars ⟨nm, TypeDefKind.objectType, fs, ds⟩ ++ rest =
        "type ".data ++ (nm.data ++ (serializeDirectivesChars ds ++
          (' ' :: '\x7b' :: '\n' :: ((fs.map serializeFieldChars).flatten ++ '\x7d' :: '\n' :: rest)))) := by
      unfold serializeNodeChars kindKeywordChars
      simp
    rw [harr]
    have hk1 : expectPrefix "type ".data ("type ".data ++ (nm.data ++ (serializeDirectivesChars ds ++
        (' ' :: '\x7b' :: '\n' :: ((fs.map serializeFieldChars).flatten ++ '\x7d' :: '\n' :: rest))))) =
        some (nm.data ++ (serializeDirectivesChars ds ++
        (' ' :: '\x7b' :: '\n' :: ((fs.map serializeFieldChars).flatten ++ '\x7d' :: '\n' :: rest)))) :=
      expectPrefix_append _ _
    have hsplit := name_split nm (serializeDirectivesChars ds ++
        (' ' :: '\x7b' :: '\n' :: ((fs.map serializeFieldChars).flatten ++ '\x7d' :: '\n' :: rest))) hnm
      (dirs_cont_head ds ' ' _ (by decide))
    have hdirs : parseDirectives fuel (serializeDirectivesChars ds ++
        (' ' :: '\x7b' :: '\n' :: ((fs.map serializeFieldChars).flatten ++ '\x7d' :: '\n' :: rest))) =
        some (ds, ' ' :: '\x7b' :: '\n' :: ((fs.map serializeFieldChars).flatten ++ '\x7d' :: '\n' :: rest)) :=
      parseDirectives_serialize ds _ fuel hdswf
        (fun c hc => by
          simp only [List.head?_cons, Option.some.injEq] at hc
          constructor
          · simp [← hc, isIdentChar]
          · rw [← hc]
            decide)
        (fun c2 cs2 heq => by
          injection heq with h1 h2
          injection h2 with h2 h3
          rw [← h2]
          decide)
        hfd
    have hfields : parseFields fuel ((fs.map serializeFieldChars).flatten ++ '\x7d' :: '\n' :: rest) =
        some (fs, rest) := parseFields_serialize fs rest fuel hfswf hff
    unfold parseNode
    simp only [hk1, hsplit.1, hsplit.2, if_neg (nameWF_shape nm hnm).1, hdirs, hfields, strMk_data]
  | inputObjectType =>
    have harr : serializeNodeChars ⟨nm, TypeDefKind.inputObjectType, fs, ds⟩ ++ rest =
        "input ".data ++ (nm.data ++ (serializeDirectivesChars ds ++
          (' ' :: '\x7b' :: '\n' :: ((fs.map serializeFieldChars).flatten ++ '\x7d' :: '\n' :: rest)))) := by
      unfold serializeNodeChars kindKeywordChars
      simp
    rw [harr]
    have hk0 : expectPrefix "type ".data ("input ".data ++ (nm.data ++ (serializeDirectivesChars ds ++
        (' ' :: '\x7b' :: '\n' :: ((fs.map serializeFieldChars).flatten ++ '\x7d' :: '\n' :: rest))))) = none := rfl
    have hk1 : expectPrefix "input ".data ("input ".data ++ (nm.data ++ (serializeDirectivesChars ds ++
        (' ' :: '\x7b' :: '\n' :: ((fs.map serializeFieldChars).flatten ++ '\x7d' :: '\n' :: rest))))) =
        some (nm.data ++ (serializeDirectivesChars ds ++
        (' ' :: '\x7b' :: '\n' :: ((fs.map serializeFieldChars).flatten ++ '\x7d' :: '\n' :: rest)))) :=
      expectPrefix_append _ _
    have hsplit := name_split nm (serializeDirectivesChars ds ++
        (' ' :: '\x7b' :: '\n' :: ((fs.map serializeFieldChars).flatten ++ '\x7d' :: '\n' :: rest))) hnm
      (dirs_cont_head ds ' ' _ (by decide))
    have hdirs : parseDirectives fuel (serializeDirectivesChars ds ++
        (' ' :: '\x7b' :: '\n' :: ((fs.map serializeFieldChars).flatten ++ '\x7d' :: '\n' :: rest))) =
        some (ds, ' ' :: '\x7b' :: '\n' :: ((fs.map serializeFieldChars).flatten ++ '\x7d' :: '\n' :: rest)) :=
      parseDirectives_serialize ds _ fuel hdswf
        (fun c hc => by
          simp only [List.head?_cons, Option.some.injEq] at hc
          constructor
          · simp [← hc, isIdentChar]
          · rw [← hc]
            decide)
        (fun c2 cs2 heq => by
          injection heq with h1 h2
          injection h2 with h2 h3
          rw [← h2]
          decide)
        hfd
    have hfields : parseFields fuel ((fs.map serializeFieldChars).flatten ++ '\x7d' :: '\n' :: rest) =
        some (fs, rest) := parseFields_serialize fs rest fuel hfswf hff
    unfold parseNode
    simp only [hk0, hk1, hsplit.1, hsplit.2, if_neg (nameWF_shape nm hnm).1, hdirs, hfields,
      strMk_data]
  | scalarType =>
    have hfs : fs = [] := by
      rcases hsc with h | h
      · exact absurd rfl h
      · exact h
    subst hfs
    have harr : serializeNodeChars ⟨nm, TypeDefKind.scalarType, [], ds⟩ ++ rest =
        "scalar ".data ++ (nm.data ++ (serializeDirectivesChars ds ++ ('\n' :: rest))) := by
      unfold serializeNodeChars kindKeywordChars
      simp
    rw [harr]
    have hk0 : expectPrefix "type ".data ("scalar ".data ++ (nm.data ++ (serializeDirectivesChars ds ++
        ('\n' :: rest)))) = none := rfl
    have hk0b : expectPrefix "input ".data ("scalar ".data ++ (nm.data ++ (serializeDirectivesChars ds ++
        ('\n' :: rest)))) = none := rfl
    have hk1 : expectPrefix "scalar ".data ("scalar ".data ++ (nm.data ++ (serializeDirectivesChars ds ++
        ('\n' :: rest)))) = some (nm.data ++ (serializeDirectivesChars ds ++ ('\n' :: rest))) :=
      expectPrefix_append _ _
    have hsplit := name_split nm (serializeDirectivesChars ds ++ ('\n' :: rest)) hnm
      (dirs_cont_head ds '\n' _ (by decide))
    have hdirs : parseDirectives fuel (serializeDirectivesChars ds ++ ('\n' :: rest)) =
        some (ds, '\n' :: rest) :=
      parseDirectives_serialize ds _ fuel hdswf
        (fun c hc => by
          simp only [List.head?_cons, Option.some.injEq] at hc
          constructor
          · simp [← hc, isIdentChar]
          · rw [← hc]
            decide)
        (fun c2 cs2 heq => by
          injection heq with h1 h2
          exact absurd h1 (by decide))
        hfd
    unfold parseNode
    simp only [hk0, hk0b, hk1, hsplit.1, hsplit.2, if_neg (nameWF_shape nm hnm).1, hdirs,
      strMk_data]
theorem serializeArgsChars_ge (args : List DirArg) :
    args.length ≤ (serializeArgsChars args).length := by
  induction args with
  | nil => simp [serializeArgsChars]
  | cons a t ih =>
    cases t with
    | nil =>
      simp [serializeArgsChars, serializeArgChars]
      omega
    | cons b t2 =>
      show (a :: b :: t2).length ≤ (serializeArgChars a ++ ',' :: ' ' :: serializeArgsChars (b :: t2)).length
      simp only [List.length_cons, List.length_append, serializeArgChars] at ih ⊢
      simp at ih ⊢
      omega

theorem serializeDirectiveChars_ge (d : Directive) :
    d.args.length + 2 ≤ (serializeDirectiveChars d).length := by
  obtain ⟨nm, args⟩ := d
  cases args with
  | nil => simp [serializeDirectiveChars]
  | cons a t =>
    have h := serializeArgsChars_ge (a :: t)
    show (a :: t).length + 2 ≤ (' ' :: '@' :: nm.data ++ ('(' :: serializeArgsChars (a :: t) ++ [')'])).length
    simp only [List.length_append, List.length_cons] at h ⊢
    simp at h ⊢
    omega

theorem dirLoad_le (ds : List Directive) :
    dirLoad ds ≤ (serializeDirectivesChars ds).length + 1 := by
  induction ds with
  | nil => simp [dirLoad, serializeDirectivesChars]
  | cons d t ih =>
    have h1 := serializeDirectiveChars_ge d
    have h2 : (serializeDirectivesChars (d :: t)).length =
        (serializeDirectiveChars d).length + (serializeDirectivesChars t).length := by
      show ((serializeDirectiveChars d) ++ serializeDirectivesChars t).length = _
      simp
    show 1 + max (argsLoad d.args) (dirLoad t) ≤ _
    rw [h2]
    have hm : max (argsLoad d.args) (dirLoad t) ≤
        (serializeDirectiveChars d).length + (serializeDirectivesChars t).length :=
      Nat.max_le.mpr ⟨by unfold argsLoad; omega, by omega⟩
    omega

theorem fieldsChars_ge (fs : List Field) :
    fs.length ≤ ((fs.map serializeFieldChars).flatten).length := by
  induction fs with
  | nil => simp
  | cons f t ih =>
    show (f :: t).length ≤ ((serializeFieldChars f) ++ (t.map serializeFieldChars).flatten).length
    simp only [List.length_cons, List.length_append]
    have : 1 ≤ (serializeFieldChars f).length := by
      unfold serializeFieldChars
      simp
    omega

theorem nodeLoad_le (n : Node) (h : nodeWF n = true) :
    nodeLoad n ≤ (serializeNodeChars n).length := by
  obtain ⟨nm, kind, fs, ds⟩ := n
  have hd := dirLoad_le ds
  have hf := fieldsChars_ge fs
  cases kind with
  | objectType =>
    show max (dirLoad ds) (fs.length + 1) ≤
      ("type ".data ++ nm.data ++ serializeDirectivesChars ds ++
        (' ' :: '\x7b' :: '\n' :: ((fs.map serializeFieldChars).flatten ++ '\x7d' :: ['\n']))).length
    simp only [List.length_append, List.length_cons]
    refine Nat.max_le.mpr ⟨?_, ?_⟩ <;> simp at hd hf ⊢ <;> omega
  | inputObjectType =>
    show max (dirLoad ds) (fs.length + 1) ≤
      ("input ".data ++ nm.data ++ serializeDirectivesChars ds ++
        (' ' :: '\x7b' :: '\n' :: ((fs.map serializeFieldChars).flatten ++ '\x7d' :: ['\n']))).length
    simp only [List.length_append, List.length_cons]
    refine Nat.max_le.mpr ⟨?_, ?_⟩ <;> simp at hd hf ⊢ <;> omega
  | scalarType =>
    have hfs : fs = [] := by
      unfold nodeWF at h
      simp only [Bool.and_eq_true, Bool.or_eq_true, Bool.not_eq_true', decide_eq_true_eq,
        List.isEmpty_iff] at h
      rcases h.2 with h2 | h2
      · simp at h2
      · exact h2
    subst hfs
    show max (dirLoad ds) 1 ≤
      ("scalar ".data ++ nm.data ++ serializeDirectivesChars ds ++ ['\n']).length
    simp only [List.length_append, List.length_cons]
    refine Nat.max_le.mpr ⟨?_, ?_⟩ <;> simp at hd ⊢ <;> omega

theorem serializeNodeChars_pos (n : Node) : 1 ≤ (serializeNodeChars n).length := by
  obtain ⟨nm, kind, fs, ds⟩ := n
  cases kind <;> simp [serializeNodeChars, kindKeywordChars]

theorem nodesLoad_le (ns : List Node) (h : ns.all nodeWF = true) :
    nodesLoad ns ≤ ((ns.map serializeNodeChars).flatten).length + 1 := by
  induction ns with
  | nil => simp [nodesLoad]
  | cons n t ih =>
    have hn := nodeLoad_le n (List.all_eq_true.mp h n (by simp))
    have ht := ih (by simp only [List.all_cons, Bool.and_eq_true] at h; exact h.2)
    have hp := serializeNodeChars_pos n
    show 1 + max (nodeLoad n) (nodesLoad t) ≤
      ((serializeNodeChars n) ++ (t.map serializeNodeChars).flatten).length + 1
    simp only [List.length_append]
    have hm : max (nodeLoad n) (nodesLoad t) ≤
        (serializeNodeChars n).length + ((t.map serializeNodeChars).flatten).length :=
      Nat.max_le.mpr ⟨by omega, by omega⟩
    omega

theorem serializeNodeChars_cons_shape (n : Node) (X : List Char) :
    ∃ c tail2, serializeNodeChars n ++ X = c :: tail2 := by
  obtain ⟨nm, kind, fs, ds⟩ := n
  cases kind with
  | objectType =>
    refine ⟨'t', 'y' :: 'p' :: 'e' :: ' ' :: (nm.data ++ (serializeDirectivesChars ds ++
      ' ' :: '\x7b' :: '\n' :: ((List.map serializeFieldChars fs).flatten ++ '\x7d' :: '\n' :: X))), ?_⟩
    show ("type ".data ++ _) ++ X = _
    simp
  | inputObjectType =>
    refine ⟨'i', 'n' :: 'p' :: 'u' :: 't' :: ' ' :: (nm.data ++ (serializeDirectivesChars ds ++
      ' ' :: '\x7b' :: '\n' :: ((List.map serializeFieldChars fs).flatten ++ '\x7d' :: '\n' :: X))), ?_⟩
    show ("input ".data ++ _) ++ X = _
    simp
  | scalarType =>
    refine ⟨'s', 'c' :: 'a' :: 'l' :: 'a' :: 'r' :: ' ' :: (nm.data ++ (serializeDirectivesChars ds ++
      '\n' :: X)), ?_⟩
    show ("scalar ".data ++ _) ++ X = _
    simp

theorem parseNodes_serialize (ns : List Node) (fuel : Nat)
    (hwf : ns.all nodeWF = true) (hfuel : nodesLoad ns ≤ fuel) :
    parseNodes fuel ((ns.map serializeNodeChars).flatten) = some (ns, []) := by
  induction ns generalizing fuel with
  | nil =>
    cases fuel with
    | zero => simp [nodesLoad] at hfuel
    | succ f => rfl
  | cons n t ih =>
    cases fuel with
    | zero => simp [nodesLoad] at hfuel
    | succ f =>
      have hnwf : nodeWF n = true := List.all_eq_true.mp hwf n (by simp)
      have htwf : t.all nodeWF = true := by
        simp only [List.all_cons, Bool.and_eq_true] at hwf
        exact hwf.2
      have hfn : nodeLoad n ≤ f := by
        simp [nodesLoad] at hfuel
        omega
      have hft : nodesLoad t ≤ f := by
        simp [nodesLoad] at hfuel
        omega
      have harr : (((n :: t).map serializeNodeChars).flatten) =
          serializeNodeChars n ++ ((t.map serializeNodeChars).flatten) := by
        simp
      rw [harr]
      obtain ⟨c, tail2, hshape⟩ := serializeNodeChars_cons_shape n ((t.map serializeNodeChars).flatten)
      have hnode : parseNode f (serializeNodeChars n ++ ((t.map serializeNodeChars).flatten)) =
          some (n, (t.map serializeNodeChars).flatten) :=
        parseNode_serialize n _ f hnwf hfn
      have hih : parseNodes f ((t.map serializeNodeChars).flatten) = some (t, []) := ih f htwf hft
      show parseNodes (f + 1) (serializeNodeChars n ++ ((t.map serializeNodeChars).flatten)) = _
      unfold parseNodes
      rw [if_neg (by rw [hshape]; simp)]
      simp only [hnode, hih]
/-- C8: for any schema text produced by serialize (over well-formed content:
identifier names, well-formed argument literals), parsing it succeeds,
reconstructs the same tree, and re-serializing returns the same text
byte-identically. -/
theorem C8_serialize_parse_roundtrip (ast : ParserTree) (h : treeWF ast = true) :
    parseSchemaToAST (generateSchemaFromAST ast) = Except.ok ast ∧
    ∃ ast2, parseSchemaToAST (generateSchemaFromAST ast) = Except.ok ast2 ∧
      generateSchemaFromAST ast2 = generateSchemaFromAST ast := by
  have hdata : (generateSchemaFromAST ast).data = (ast.nodes.map serializeNodeChars).flatten := rfl
  have hload2 : nodesLoad ast.nodes ≤ ((ast.nodes.map serializeNodeChars).flatten).length + 1 :=
    nodesLoad_le ast.nodes h
  have hparse : parseNodes ((generateSchemaFromAST ast).data.length + 1)
      (generateSchemaFromAST ast).data = some (ast.nodes, []) := by
    rw [hdata]
    exact parseNodes_serialize ast.nodes _ h hload2
  have hmain : parseSchemaToAST (generateSchemaFromAST ast) = Except.ok ast := by
    unfold parseSchemaToAST
    rw [hparse]
  exact ⟨hmain, ast, hmain, rfl⟩

set_option maxRecDepth 40000 in
theorem C8_serialize_parse_roundtrip_witness :
    parseSchemaToAST (generateSchemaFromAST ⟨[exCheckout, exKeep, exPayInput]⟩) =
      Except.ok ⟨[exCheckout, exKeep, exPayInput]⟩ :=
  (C8_serialize_parse_roundtrip ⟨[exCheckout, exKeep, exPayInput]⟩ (by decide)).1

theorem jsMapGet_set_same (m : List (String × Node)) (k : String) (v : Node) :
    jsMapGet (jsMapSet m k v) k = some v := by
  unfold jsMapSet jsMapGet
  by_cases h : m.any (fun p => p.1 = k)
  · rw [if_pos h]
    induction m with
    | nil => simp at h
    | cons p t ih =>
      by_cases hp : p.1 = k
      · simp [List.find?, hp]
      · simp only [List.map_cons, if_neg hp]
        rw [List.find?_cons_of_neg _ (by simpa using hp)]
        apply ih
        simpa [List.any_cons, hp] using h
  · rw [if_neg h]
    induction m with
    | nil => simp [List.find?]
    | cons p t ih =>
      have hp : ¬(p.1 = k) := by
        intro hh
        exact h (by simp [List.any_cons, hh])
      simp only [List.cons_append]
      rw [List.find?_cons_of_neg _ (by simpa using hp)]
      apply ih
      intro hh
      exact h (by simp [List.any_cons]; right; simpa using hh)

theorem jsMapGet_set_ne (m : List (String × Node)) (k k2 : String) (v : Node)
    (h : ¬(k = k2)) : jsMapGet (jsMapSet m k v) k2 = jsMapGet m k2 := by
  unfold jsMapSet jsMapGet
  by_cases ha : m.any (fun p => p.1 = k)
  · rw [if_pos ha]
    clear ha
    induction m with
    | nil => simp
    | cons p t ih =>
      by_cases hp : p.1 = k
      · simp only [List.map_cons, if_pos hp]
        rw [List.find?_cons_of_neg _ (by simpa using h),
          List.find?_cons_of_neg _ (by rw [hp]; simpa using h)]
        exact ih
      · simp only [List.map_cons, if_neg hp]
        by_cases hp2 : p.1 = k2
        · rw [List.find?_cons_of_pos _ (by simpa using hp2),
            List.find?_cons_of_pos _ (by simpa using hp2)]
        · rw [List.find?_cons_of_neg _ (by simpa using hp2),
            List.find?_cons_of_neg _ (by simpa using hp2)]
          exact ih
  · rw [if_neg ha]
    induction m with
    | nil =>
      simp only [List.nil_append]
      rw [List.find?_cons_of_neg _ (by simpa using h)]
    | cons p t ih =>
      have hta : ¬(t.any (fun p => p.1 = k)) := by
        intro hh
        exact ha (by simp [List.any_cons]; right; simpa using hh)
      by_cases hp2 : p.1 = k2
      · simp only [List.cons_append]
        rw [List.find?_cons_of_pos _ (by simpa using hp2),
          List.find?_cons_of_pos _ (by simpa using hp2)]
      · simp only [List.cons_append]
        rw [List.find?_cons_of_neg _ (by simpa using hp2),
          List.find?_cons_of_neg _ (by simpa using hp2)]
        exact ih hta
theorem decode_ety_ne (od : Option Directive)
    (h : (getBlockIdAndEntityTypeFromDirective od).blockId ≠ "") :
    (getBlockIdAndEntityTypeFromDirective od).blockEntityType ≠ "" := by
  unfold getBlockIdAndEntityTypeFromDirective at h ⊢
  by_cases h1 : getDirectiveArg od ARG_BLOCK_ID ≠ "" ∧ getDirectiveArg od ARG_BLOCK_ENTITY_TYPE ≠ ""
  · rw [if_pos h1] at h ⊢
    exact h1.2
  · rw [if_neg h1] at h ⊢
    by_cases h2 : getDirectiveArg od ARG_NODE_ID = ""
    · rw [if_pos h2] at h
      exact absurd rfl h
    · rw [if_neg h2] at h ⊢
      by_cases h3 : strEndsWith (getDirectiveArg od ARG_NODE_ID) NODEID_SUFFIX_INPUT = true
      · rw [if_pos h3]
        simp [BLOCK_ENTITY_INPUT]
      · rw [if_neg h3]
        by_cases h4 : strEndsWith (getDirectiveArg od ARG_NODE_ID) NODEID_SUFFIX_RESULT = true
        · rw [if_pos h4]
          simp [BLOCK_ENTITY_RESULT]
        · rw [if_neg h4]
          simp [BLOCK_ENTITY_BLOCK]

theorem nodeBlockKey_ety_ne (nd : Node) (h : (nodeBlockKey nd).blockId ≠ "") :
    (nodeBlockKey nd).blockEntityType ≠ "" :=
  decode_ety_ne _ h

theorem getLast?_cons_none {α : Type} (a : α) (l : List α) (h : l.getLast? = none) :
    (a :: l).getLast? = some a := by
  rw [List.getLast?_eq_none_iff.mp h]
  rfl

theorem getLast?_cons_some {α : Type} (a x : α) (l : List α) (h : l.getLast? = some x) :
    (a :: l).getLast? = some x := by
  cases l with
  | nil => simp at h
  | cons b t => exact h

theorem buildMap_get (l : List Node) (m : List (String × Node)) (k : String) :
    jsMapGet (l.foldl buildStep m) k =
      match (l.filter (fun t =>
          decide ((nodeBlockKey t).blockId ≠ "" ∧ (nodeBlockKey t).blockEntityType ≠ "") &&
          decide (nodeKeyStr t = k))).getLast? with
      | some nd => some nd
      | none => jsMapGet m k := by
  induction l generalizing m with
  | nil => rfl
  | cons t rest ih =>
    rw [List.foldl_cons, ih]
    by_cases hok : (nodeBlockKey t).blockId ≠ "" ∧ (nodeBlockKey t).blockEntityType ≠ ""
    · by_cases hk : nodeKeyStr t = k
      · have hf : (t :: rest).filter (fun t =>
            decide ((nodeBlockKey t).blockId ≠ "" ∧ (nodeBlockKey t).blockEntityType ≠ "") &&
            decide (nodeKeyStr t = k)) = t :: rest.filter (fun t =>
            decide ((nodeBlockKey t).blockId ≠ "" ∧ (nodeBlockKey t).blockEntityType ≠ "") &&
            decide (nodeKeyStr t = k)) := by
          rw [List.filter_cons_of_pos]
          simp [hok, hk]
        rw [hf]
        cases hlast : (rest.filter (fun t =>
            decide ((nodeBlockKey t).blockId ≠ "" ∧ (nodeBlockKey t).blockEntityType ≠ "") &&
            decide (nodeKeyStr t = k))).getLast? with
        | some nd => rw [getLast?_cons_some t nd _ hlast]
        | none =>
          rw [getLast?_cons_none t _ hlast]
          have hstep : buildStep m t = jsMapSet m k t := by
            unfold buildStep
            rw [if_pos hok]
            rw [show keyString (nodeBlockKey t).blockId (nodeBlockKey t).blockEntityType =
              nodeKeyStr t from rfl, hk]
          rw [hstep, jsMapGet_set_same]
      · have hf : (t :: rest).filter (fun t =>
            decide ((nodeBlockKey t).blockId ≠ "" ∧ (nodeBlockKey t).blockEntityType ≠ "") &&
            decide (nodeKeyStr t = k)) = rest.filter (fun t =>
            decide ((nodeBlockKey t).blockId ≠ "" ∧ (nodeBlockKey t).blockEntityType ≠ "") &&
            decide (nodeKeyStr t = k)) := by
          rw [List.filter_cons_of_neg]
          simp [hk]
        rw [hf]
        cases hlast : (rest.filter (fun t =>
            decide ((nodeBlockKey t).blockId ≠ "" ∧ (nodeBlockKey t).blockEntityType ≠ "") &&
            decide (nodeKeyStr t = k))).getLast? with
        | some nd => rfl
        | none =>
          have hstep : buildStep m t = jsMapSet m (nodeKeyStr t) t := by
            unfold buildStep
            rw [if_pos hok]
            rfl
          rw [hstep, jsMapGet_set_ne _ _ _ _ hk]
    · have hf : (t :: rest).filter (fun t =>
          decide ((nodeBlockKey t).blockId ≠ "" ∧ (nodeBlockKey t).blockEntityType ≠ "") &&
          decide (nodeKeyStr t = k)) = rest.filter (fun t =>
          decide ((nodeBlockKey t).blockId ≠ "" ∧ (nodeBlockKey t).blockEntityType ≠ "") &&
          decide (nodeKeyStr t = k)) := by
        rw [List.filter_cons_of_neg]
        simp [hok]
      rw [hf]
      have hstep : buildStep m t = m := by
        unfold buildStep
        rw [if_neg hok]
      rw [hstep]
theorem filter_filter_and {α : Type} (p q : α → Bool) (l : List α) :
    (l.filter p).filter q = l.filter (fun a => p a && q a) := by
  induction l with
  | nil => rfl
  | cons x t ih => cases hpx : p x <;> cases hqx : q x <;> simp [List.filter_cons, hpx, hqx, ih]

theorem bool_eq_of_iff {a b : Bool} (h : a = true ↔ b = true) : a = b := by
  cases a <;> cases b <;> simp_all

theorem mem_of_getLast?_eq {α : Type} {l : List α} {a : α} (h : l.getLast? = some a) : a ∈ l := by
  induction l with
  | nil => cases h
  | cons x t ih =>
    cases t with
    | nil =>
      simp at h
      simp [h]
    | cons y u =>
      rw [List.getLast?_cons_cons] at h
      exact List.mem_cons_of_mem _ (ih h)

theorem getLast?_of_ne_nil {α : Type} {l : List α} (h : l ≠ []) : ∃ a, l.getLast? = some a := by
  cases hl : l.getLast? with
  | some a => exact ⟨a, rfl⟩
  | none => exact absurd (List.getLast?_eq_none_iff.mp hl) h

theorem renameNodeFun_kind (o n : String) (nd : Node) :
    (renameNodeFun o n nd).kind = nd.kind := by
  unfold renameNodeFun
  by_cases h : nd.name = o
  · rw [if_pos h]
  · rw [if_neg h]

theorem renameNodeFun_name (o n : String) (nd : Node) :
    (renameNodeFun o n nd).name = if nd.name = o then n else nd.name := by
  unfold renameNodeFun
  by_cases h : nd.name = o
  · rw [if_pos h, if_pos h]
  · rw [if_neg h, if_neg h]

theorem renChain_directives (rens : List TypeToRename) (nd : Node) :
    (renChain rens nd).directives = nd.directives := by
  induction rens generalizing nd with
  | nil => rfl
  | cons r t ih =>
    show (renChain t (renameNodeFun r.oldName r.newName nd)).directives = nd.directives
    rw [ih, renameNodeFun_directives]

theorem renChain_kind (rens : List TypeToRename) (nd : Node) :
    (renChain rens nd).kind = nd.kind := by
  induction rens generalizing nd with
  | nil => rfl
  | cons r t ih =>
    show (renChain t (renameNodeFun r.oldName r.newName nd)).kind = nd.kind
    rw [ih, renameNodeFun_kind]

theorem renChain_name (rens : List TypeToRename) (nd : Node) :
    (renChain rens nd).name = renChainName rens nd.name := by
  induction rens generalizing nd with
  | nil => rfl
  | cons r t ih =>
    show (renChain t (renameNodeFun r.oldName r.newName nd)).name =
      renChainName t (if nd.name = r.oldName then r.newName else nd.name)
    rw [ih, renameNodeFun_name]

theorem nodeBlockKey_renChain (rens : List TypeToRename) (nd : Node) :
    nodeBlockKey (renChain rens nd) = nodeBlockKey nd := by
  unfold nodeBlockKey
  rw [renChain_directives]

theorem applyRenames_nodes (ast : ParserTree) (rens : List TypeToRename) :
    (applyRenames ast rens).nodes = ast.nodes.map (renChain rens) := by
  induction rens generalizing ast with
  | nil => exact (List.map_id ast.nodes).symm
  | cons r t ih =>
    show (applyRenames (renameTypeInAST ast r.oldName r.newName) t).nodes = _
    rw [ih]
    show (ast.nodes.map (renameNodeFun r.oldName r.newName)).map (renChain t) = _
    rw [List.map_map]
    rfl

theorem applyAdditions_nodes (ast : ParserTree) (adds : List TypeToAdd) :
    (applyAdditions ast adds).nodes = ast.nodes ++ adds.map mkAddNode := by
  induction adds generalizing ast with
  | nil => simp [applyAdditions]
  | cons a t ih =>
    show (applyAdditions (addTypeToAST ast a.typeName a.blockType a.blockId a.blockEntityType) t).nodes = _
    rw [ih]
    show (ast.nodes ++ [addedNode a.typeName a.blockType a.blockId a.blockEntityType]) ++ t.map mkAddNode = _
    rw [List.append_assoc]
    rfl

theorem applyRemovals_nodes (ast : ParserTree) (rems : List String) :
    (applyRemovals ast rems).nodes = ast.nodes.filter (keepAfter rems) := by
  induction rems generalizing ast with
  | nil => exact (List.filter_eq_self.mpr (fun a _ => rfl)).symm
  | cons s t ih =>
    show (applyRemovals (removeTypeFromAST ast s) t).nodes = _
    rw [ih]
    have hrm : (removeTypeFromAST ast s).nodes = ast.nodes.filter (fun node => node.name ≠ s) := rfl
    rw [hrm, filter_filter_and]
    apply List.filter_congr
    intro x hx
    simp [keepAfter, List.all_cons, decide_not]

theorem applyChangePlan_nodes (ast : ParserTree) (plan : SchemaChangePlan) :
    (applyChangePlan ast plan).nodes =
      (ast.nodes.map (renChain plan.typesToRename) ++ plan.typesToAdd.map mkAddNode).filter
        (keepAfter plan.typesToRemove) := by
  unfold applyChangePlan
  rw [applyRemovals_nodes, applyAdditions_nodes, applyRenames_nodes]

theorem collectBlockChanges_foldl (ast : ParserTree) (blocks : List BlockInfo) (acc : SchemaChangePlan) :
    blocks.foldl (fun plan block =>
      let blockChanges := analyzeBlockSchemaChanges block ast
      (⟨plan.typesToAdd ++ blockChanges.typesToAdd,
        plan.typesToRename ++ blockChanges.typesToRename,
        plan.typesToRemove⟩ : SchemaChangePlan)) acc =
      ⟨acc.typesToAdd ++ (blocks.map (fun b => (analyzeBlockSchemaChanges b ast).typesToAdd)).flatten,
       acc.typesToRename ++ (blocks.map (fun b => (analyzeBlockSchemaChanges b ast).typesToRename)).flatten,
       acc.typesToRemove⟩ := by
  induction blocks generalizing acc with
  | nil =>
    cases acc
    simp
  | cons b t ih =>
    rw [List.foldl_cons, ih]
    cases acc
    simp [List.append_assoc]

theorem collectBlockChanges_eq (blocks : List BlockInfo) (ast : ParserTree) :
    collectBlockChanges blocks ast =
      ⟨(blocks.map (fun b => (getBlockTypeEntries b).filterMap (addOfEntry b ast))).flatten,
       (blocks.map (fun b => (getBlockTypeEntries b).filterMap (renOfEntry b ast))).flatten,
       []⟩ := by
  unfold collectBlockChanges
  rw [collectBlockChanges_foldl]
  simp [emptyPlan, analyzeBlockSchemaChanges_eq]

theorem computePlan_adds (blocks : List BlockInfo) (ast : ParserTree) :
    (computePlan blocks ast).typesToAdd =
      (blocks.map (fun b => (getBlockTypeEntries b).filterMap (addOfEntry b ast))).flatten := by
  unfold computePlan addOrphanedTypesToPlan
  rw [collectBlockChanges_eq]

theorem computePlan_rens (blocks : List BlockInfo) (ast : ParserTree) :
    (computePlan blocks ast).typesToRename =
      (blocks.map (fun b => (getBlockTypeEntries b).filterMap (renOfEntry b ast))).flatten := by
  unfold computePlan addOrphanedTypesToPlan
  rw [collectBlockChanges_eq]

theorem computePlan_rems (blocks : List BlockInfo) (ast : ParserTree) :
    (computePlan blocks ast).typesToRemove =
      (findOrphanedTypes ast blocks).map (fun t => t.name) := by
  unfold computePlan addOrphanedTypesToPlan
  rw [collectBlockChanges_eq]
  simp

theorem mem_plan_adds {blocks : List BlockInfo} {ast : ParserTree} {a : TypeToAdd} :
    a ∈ (computePlan blocks ast).typesToAdd ↔
      ∃ b ∈ blocks, ∃ e ∈ getBlockTypeEntries b, addOfEntry b ast e = some a := by
  rw [computePlan_adds]
  simp [List.mem_flatten, List.mem_filterMap]

theorem mem_plan_rens {blocks : List BlockInfo} {ast : ParserTree} {r : TypeToRename} :
    r ∈ (computePlan blocks ast).typesToRename ↔
      ∃ b ∈ blocks, ∃ e ∈ getBlockTypeEntries b, renOfEntry b ast e = some r := by
  rw [computePlan_rens]
  simp [List.mem_flatten, List.mem_filterMap]

theorem string_data_inj {s t : String} (h : s.data = t.data) : s = t := by
  cases s
  cases t
  exact congrArg String.mk h

theorem keyString_data (a c : String) : (keyString a c).data = a.data ++ '\t' :: c.data := by
  show ((a ++ "\t") ++ c).data = _
  rw [strData_append, strData_append]
  rw [List.append_assoc]
  rfl

theorem keyString_inj_right (a x y : String) (h : keyString a x = keyString a y) : x = y := by
  have hd : a.data ++ '\t' :: x.data = a.data ++ '\t' :: y.data := by
    have h2 := congrArg String.data h
    rw [keyString_data, keyString_data] at h2
    exact h2
  have h3 := List.append_cancel_left hd
  apply string_data_inj
  simpa using h3

theorem name_inj {ast : ParserTree} (h : (ast.nodes.map (fun nd => nd.name)).Nodup)
    {x y : Node} (hx : x ∈ ast.nodes) (hy : y ∈ ast.nodes) (he : x.name = y.name) : x = y :=
  List.inj_on_of_nodup_map h hx hy he

theorem key_inj {ast : ParserTree} (h : ((ast.nodes.filter managedTarget).map nodeKeyStr).Nodup)
    {x y : Node} (hx : x ∈ ast.nodes) (hy : y ∈ ast.nodes)
    (hmx : managedTarget x = true) (hmy : managedTarget y = true)
    (hk : nodeBlockKey x = nodeBlockKey y) : x = y := by
  have hx2 : x ∈ ast.nodes.filter managedTarget := List.mem_filter.mpr ⟨hx, hmx⟩
  have hy2 : y ∈ ast.nodes.filter managedTarget := List.mem_filter.mpr ⟨hy, hmy⟩
  exact List.inj_on_of_nodup_map h hx2 hy2 (by unfold nodeKeyStr; rw [hk])

theorem blocks_id_inj {blocks : List BlockInfo} (h : (blocks.map (fun b => b.id)).Nodup)
    {x y : BlockInfo} (hx : x ∈ blocks) (hy : y ∈ blocks) (he : x.id = y.id) : x = y :=
  List.inj_on_of_nodup_map h hx hy he

theorem entries_ety_values {b : BlockInfo} {e : TypeEntry} (he : e ∈ getBlockTypeEntries b) :
    e.blockEntityType = BLOCK_ENTITY_INPUT ∨ e.blockEntityType = BLOCK_ENTITY_RESULT ∨
      e.blockEntityType = BLOCK_ENTITY_BLOCK := by
  unfold getBlockTypeEntries at he
  by_cases hc : b.type = "command"
  · rw [if_pos hc] at he
    simp at he
    rcases he with rfl | rfl
    · exact Or.inl rfl
    · exact Or.inr (Or.inl rfl)
  · rw [if_neg hc] at he
    simp at he
    rw [he]
    exact Or.inr (Or.inr rfl)

theorem entries_ety_ne_empty {b : BlockInfo} {e : TypeEntry} (he : e ∈ getBlockTypeEntries b) :
    e.blockEntityType ≠ "" := by
  rcases entries_ety_values he with h | h | h <;> rw [h] <;> decide

theorem entries_ety_inj {b : BlockInfo} {e e' : TypeEntry} (he : e ∈ getBlockTypeEntries b)
    (he' : e' ∈ getBlockTypeEntries b) (h : e.blockEntityType = e'.blockEntityType) : e = e' := by
  unfold getBlockTypeEntries at he he'
  by_cases hc : b.type = "command"
  · rw [if_pos hc] at he he'
    simp at he he'
    rcases he with rfl | rfl <;> rcases he' with rfl | rfl
    · rfl
    · exact absurd (show BLOCK_ENTITY_INPUT = BLOCK_ENTITY_RESULT from h) (by decide)
    · exact absurd (show BLOCK_ENTITY_RESULT = BLOCK_ENTITY_INPUT from h) (by decide)
    · rfl
  · rw [if_neg hc] at he he'
    simp at he he'
    rw [he, he']

theorem entries_name_required {blocks : List BlockInfo} {b : BlockInfo} {e : TypeEntry}
    (hb : b ∈ blocks) (he : e ∈ getBlockTypeEntries b) :
    e.typeName ∈ requiredTypeNames blocks := by
  unfold requiredTypeNames
  rw [List.mem_flatten]
  exact ⟨(getBlockTypeEntries b).map (fun e => e.typeName),
    List.mem_map_of_mem _ hb, List.mem_map_of_mem _ he⟩

theorem blockWF_id_nameWF {b : BlockInfo} (h : blockWF b = true) : nameWF b.id = true := by
  simp only [blockWF, Bool.and_eq_true] at h
  exact h.1.1

theorem blockWF_type_quotefree {b : BlockInfo} (h : blockWF b = true) :
    b.type.data.all (fun c => !(c = '"')) = true := by
  simp only [blockWF, Bool.and_eq_true] at h
  exact h.1.2

theorem blockWF_entry_nameWF {b : BlockInfo} {e : TypeEntry} (h : blockWF b = true)
    (he : e ∈ getBlockTypeEntries b) : nameWF e.typeName = true := by
  simp only [blockWF, Bool.and_eq_true] at h
  exact List.all_eq_true.mp h.2 e he

theorem nameWF_ne_empty {s : String} (h : nameWF s = true) : s ≠ "" := by
  intro he
  subst he
  simp [nameWF] at h

theorem mem_entryNodes {ast : ParserTree} {bid ety : String} {x : Node} :
    x ∈ entryNodes ast bid ety ↔
      x ∈ ast.nodes ∧ isTargetTypeKind x.kind = true ∧ (nodeBlockKey x).blockId = bid ∧
        (nodeBlockKey x).blockEntityType = ety := by
  unfold entryNodes
  rw [List.mem_filter]
  simp [Bool.and_eq_true, and_assoc]

theorem lookupEntry_eq (b : BlockInfo) (ast : ParserTree) (e : TypeEntry)
    (hbid : b.id ≠ "") (hety : e.blockEntityType ≠ "") :
    lookupEntry b ast e = (entryNodes ast b.id e.blockEntityType).getLast? := by
  unfold lookupEntry buildExistingMap
  rw [buildMap_get]
  have hfil : (findRelatedTypes ast b.id).filter (fun t =>
      decide ((nodeBlockKey t).blockId ≠ "" ∧ (nodeBlockKey t).blockEntityType ≠ "") &&
      decide (nodeKeyStr t = keyString b.id e.blockEntityType)) =
      entryNodes ast b.id e.blockEntityType := by
    unfold findRelatedTypes entryNodes
    rw [filter_filter_and]
    apply List.filter_congr
    intro x hx
    apply bool_eq_of_iff
    simp only [Bool.and_eq_true, decide_eq_true_eq]
    constructor
    · rintro ⟨⟨htk, hbidx⟩, ⟨h1, h2⟩, hkey⟩
      refine ⟨⟨htk, hbidx⟩, ?_⟩
      have hk2 : keyString (nodeBlockKey x).blockId (nodeBlockKey x).blockEntityType =
          keyString b.id e.blockEntityType := hkey
      rw [hbidx] at hk2
      exact keyString_inj_right _ _ _ hk2
    · rintro ⟨⟨htk, hbidx⟩, hetyx⟩
      refine ⟨⟨htk, hbidx⟩, ⟨?_, ?_⟩, ?_⟩
      · rw [hbidx]
        exact hbid
      · rw [hetyx]
        exact hety
      · show keyString (nodeBlockKey x).blockId (nodeBlockKey x).blockEntityType = _
        rw [hbidx, hetyx]
  rw [hfil]
  cases hl : (entryNodes ast b.id e.blockEntityType).getLast? with
  | some nd => rfl
  | none => rfl

theorem lookupEntry_some_mem {b : BlockInfo} {ast : ParserTree} {e : TypeEntry} {nd : Node}
    (hbid : b.id ≠ "") (hety : e.blockEntityType ≠ "")
    (h : lookupEntry b ast e = some nd) :
    nd ∈ ast.nodes ∧ isTargetTypeKind nd.kind = true ∧ (nodeBlockKey nd).blockId = b.id ∧
      (nodeBlockKey nd).blockEntityType = e.blockEntityType := by
  rw [lookupEntry_eq b ast e hbid hety] at h
  exact mem_entryNodes.mp (mem_of_getLast?_eq h)

theorem lookupEntry_none_nil {b : BlockInfo} {ast : ParserTree} {e : TypeEntry}
    (hbid : b.id ≠ "") (hety : e.blockEntityType ≠ "")
    (h : lookupEntry b ast e = none) : entryNodes ast b.id e.blockEntityType = [] := by
  rw [lookupEntry_eq b ast e hbid hety] at h
  exact List.getLast?_eq_none_iff.mp h

theorem renOfEntry_eq_some {b : BlockInfo} {ast : ParserTree} {e : TypeEntry} {r : TypeToRename}
    (h : renOfEntry b ast e = some r) :
    ∃ m, lookupEntry b ast e = some m ∧ m.name ≠ e.typeName ∧
      r = ⟨m.name, e.typeName, keyString b.id e.blockEntityType⟩ := by
  unfold renOfEntry renOfKey at h
  cases hm : jsMapGet (buildExistingMap (findRelatedTypes ast b.id))
      (keyString b.id e.blockEntityType) with
  | none =>
    simp only [hm] at h
    exact Option.noConfusion h
  | some m =>
    simp only [hm] at h
    by_cases hname : m.name ≠ e.typeName
    · rw [if_pos hname] at h
      exact ⟨m, hm, hname, (Option.some.inj h).symm⟩
    · rw [if_neg hname] at h
      exact Option.noConfusion h

theorem renOfEntry_of_match {b : BlockInfo} {ast : ParserTree} {e : TypeEntry} {m : Node}
    (h : lookupEntry b ast e = some m) (hname : m.name = e.typeName) :
    renOfEntry b ast e = none := by
  unfold renOfEntry renOfKey
  rw [show jsMapGet (buildExistingMap (findRelatedTypes ast b.id))
      (keyString b.id e.blockEntityType) = some m from h]
  simp [hname]

theorem renOfEntry_of_rename {b : BlockInfo} {ast : ParserTree} {e : TypeEntry} {m : Node}
    (h : lookupEntry b ast e = some m) (hname : m.name ≠ e.typeName) :
    renOfEntry b ast e = some ⟨m.name, e.typeName, keyString b.id e.blockEntityType⟩ := by
  unfold renOfEntry renOfKey
  rw [show jsMapGet (buildExistingMap (findRelatedTypes ast b.id))
      (keyString b.id e.blockEntityType) = some m from h]
  simp [hname]

theorem addOfEntry_eq_some {b : BlockInfo} {ast : ParserTree} {e : TypeEntry} {a : TypeToAdd}
    (h : addOfEntry b ast e = some a) :
    lookupEntry b ast e = none ∧ a = ⟨e.typeName, b.type, b.id, e.blockEntityType⟩ := by
  unfold addOfEntry addOfKey at h
  cases hm : jsMapGet (buildExistingMap (findRelatedTypes ast b.id))
      (keyString b.id e.blockEntityType) with
  | none =>
    simp only [hm] at h
    exact ⟨hm, (Option.some.inj h).symm⟩
  | some m =>
    simp only [hm] at h
    exact Option.noConfusion h

theorem addOfEntry_of_none {b : BlockInfo} {ast : ParserTree} {e : TypeEntry}
    (h : lookupEntry b ast e = none) :
    addOfEntry b ast e = some ⟨e.typeName, b.type, b.id, e.blockEntityType⟩ := by
  unfold addOfEntry addOfKey
  rw [show jsMapGet (buildExistingMap (findRelatedTypes ast b.id))
      (keyString b.id e.blockEntityType) = none from h]

theorem addOfEntry_of_some {b : BlockInfo} {ast : ParserTree} {e : TypeEntry} {m : Node}
    (h : lookupEntry b ast e = some m) :
    addOfEntry b ast e = none := by
  unfold addOfEntry addOfKey
  rw [show jsMapGet (buildExistingMap (findRelatedTypes ast b.id))
      (keyString b.id e.blockEntityType) = some m from h]

theorem managedTarget_of {m : Node} (hk : isTargetTypeKind m.kind = true)
    (hb : (nodeBlockKey m).blockId ≠ "") : managedTarget m = true := by
  simp [managedTarget, hk, hb]

theorem ren_oldName_node {blocks : List BlockInfo} {ast : ParserTree} {r : TypeToRename}
    (hbwf : blocks.all blockWF = true)
    (hr : r ∈ (computePlan blocks ast).typesToRename) :
    ∃ b' e' m', b' ∈ blocks ∧ e' ∈ getBlockTypeEntries b' ∧
      m' ∈ ast.nodes ∧ isTargetTypeKind m'.kind = true ∧
      (nodeBlockKey m').blockId = b'.id ∧ (nodeBlockKey m').blockEntityType = e'.blockEntityType ∧
      r.oldName = m'.name ∧ r.newName = e'.typeName ∧ m'.name ≠ e'.typeName ∧
      renOfEntry b' ast e' = some r := by
  obtain ⟨b', hb', e', he', hren⟩ := mem_plan_rens.mp hr
  obtain ⟨m', hlk, hname, hreq⟩ := renOfEntry_eq_some hren
  have hbid : b'.id ≠ "" := nameWF_ne_empty (blockWF_id_nameWF (List.all_eq_true.mp hbwf b' hb'))
  have hety : e'.blockEntityType ≠ "" := entries_ety_ne_empty he'
  obtain ⟨hmmem, hmk, hmbid, hmety⟩ := lookupEntry_some_mem hbid hety hlk
  subst hreq
  exact ⟨b', e', m', hb', he', hmmem, hmk, hmbid, hmety, rfl, rfl, hname, hren⟩

theorem matched_eq {ast : ParserTree}
    (hkeys : ((ast.nodes.filter managedTarget).map nodeKeyStr).Nodup)
    {b : BlockInfo} {e : TypeEntry} {m x : Node}
    (hbid : b.id ≠ "") (hety : e.blockEntityType ≠ "")
    (hm : lookupEntry b ast e = some m)
    (hx : x ∈ ast.nodes) (hxk : isTargetTypeKind x.kind = true)
    (hxb : (nodeBlockKey x).blockId = b.id)
    (hxe : (nodeBlockKey x).blockEntityType = e.blockEntityType) :
    x = m := by
  obtain ⟨hmm, hmk, hmb, hme⟩ := lookupEntry_some_mem hbid hety hm
  apply key_inj hkeys hx hmm
  · exact managedTarget_of hxk (by rw [hxb]; exact hbid)
  · exact managedTarget_of hmk (by rw [hmb]; exact hbid)
  · calc nodeBlockKey x = ⟨(nodeBlockKey x).blockId, (nodeBlockKey x).blockEntityType⟩ := rfl
      _ = ⟨b.id, e.blockEntityType⟩ := by rw [hxb, hxe]
      _ = ⟨(nodeBlockKey m).blockId, (nodeBlockKey m).blockEntityType⟩ := by rw [hmb, hme]
      _ = nodeBlockKey m := rfl

theorem renChainName_stable (rens : List TypeToRename) (s : String)
    (h : ∀ r ∈ rens, r.oldName ≠ s) : renChainName rens s = s := by
  induction rens with
  | nil => rfl
  | cons r t ih =>
    show renChainName t (if s = r.oldName then r.newName else s) = s
    rw [if_neg (fun he => (h r (List.mem_cons_self r t)) he.symm)]
    exact ih (fun r2 hr2 => h r2 (List.mem_cons_of_mem _ hr2))

theorem renChainName_fires (rens : List TypeToRename) (s t : String)
    (h1 : ∀ r ∈ rens, r.oldName = s → r.newName = t)
    (h2 : ∀ r ∈ rens, r.oldName ≠ t)
    (h3 : (∃ r ∈ rens, r.oldName = s) ∨ s = t) :
    renChainName rens s = t := by
  induction rens with
  | nil =>
    rcases h3 with ⟨r, hr, _⟩ | rfl
    · cases hr
    · rfl
  | cons r rest ih =>
    show renChainName rest (if s = r.oldName then r.newName else s) = t
    by_cases hrs : s = r.oldName
    · rw [if_pos hrs]
      rw [h1 r (List.mem_cons_self r rest) hrs.symm]
      exact renChainName_stable rest t (fun r2 hr2 => h2 r2 (List.mem_cons_of_mem _ hr2))
    · rw [if_neg hrs]
      apply ih
      · exact fun r2 hr2 => h1 r2 (List.mem_cons_of_mem _ hr2)
      · exact fun r2 hr2 => h2 r2 (List.mem_cons_of_mem _ hr2)
      · rcases h3 with ⟨r2, hr2, hold⟩ | heq
        · rcases List.mem_cons.mp hr2 with rfl | hmem
          · exact absurd hold.symm hrs
          · exact Or.inl ⟨r2, hmem, hold⟩
        · exact Or.inr heq

theorem matched_renChain_name {blocks : List BlockInfo} {ast : ParserTree}
    (hbwf : blocks.all blockWF = true)
    (hnames : (ast.nodes.map (fun nd => nd.name)).Nodup)
    (_hkeys : ((ast.nodes.filter managedTarget).map nodeKeyStr).Nodup)
    (hids : (blocks.map (fun b => b.id)).Nodup)
    (hchain : ∀ r ∈ (computePlan blocks ast).typesToRename,
      ∀ r2 ∈ (computePlan blocks ast).typesToRename, ¬(r.newName = r2.oldName))
    {b : BlockInfo} {e : TypeEntry} (hb : b ∈ blocks) (he : e ∈ getBlockTypeEntries b)
    {m : Node} (hm : lookupEntry b ast e = some m) :
    renChainName (computePlan blocks ast).typesToRename m.name = e.typeName := by
  have hbid : b.id ≠ "" := nameWF_ne_empty (blockWF_id_nameWF (List.all_eq_true.mp hbwf b hb))
  have hety : e.blockEntityType ≠ "" := entries_ety_ne_empty he
  obtain ⟨hmm, hmk, hmb, hme⟩ := lookupEntry_some_mem hbid hety hm
  have hdet : ∀ r2 ∈ (computePlan blocks ast).typesToRename, r2.oldName = m.name →
      renOfEntry b ast e = some r2 := by
    intro r2 hr2 hold
    obtain ⟨b', e', m', hb', he', hm'mem, hm'k, hm'bid, hm'ety, holdn, hnewn, hm'ne, hren'⟩ :=
      ren_oldName_node hbwf hr2
    have hm'm : m' = m := name_inj hnames hm'mem hmm (by rw [← holdn, hold])
    subst hm'm
    have hbb : b' = b := blocks_id_inj hids hb' hb (by rw [← hm'bid, hmb])
    subst hbb
    have hee : e' = e := entries_ety_inj he' he (by rw [← hm'ety, hme])
    subst hee
    exact hren'
  by_cases hname : m.name = e.typeName
  · rw [hname]
    apply renChainName_stable
    intro r hr hcontra
    have hsome := hdet r hr (by rw [hcontra, hname])
    rw [renOfEntry_of_match hm hname] at hsome
    exact Option.noConfusion hsome
  · have hr0 : renOfEntry b ast e = some ⟨m.name, e.typeName, keyString b.id e.blockEntityType⟩ :=
      renOfEntry_of_rename hm hname
    have hr0mem : (⟨m.name, e.typeName, keyString b.id e.blockEntityType⟩ : TypeToRename) ∈
        (computePlan blocks ast).typesToRename :=
      mem_plan_rens.mpr ⟨b, hb, e, he, hr0⟩
    apply renChainName_fires
    · intro r hr hold
      have hsome := hdet r hr hold
      rw [hr0] at hsome
      rw [← Option.some.inj hsome]
    · intro r hr hcontra
      exact hchain _ hr0mem r hr hcontra.symm
    · exact Or.inl ⟨_, hr0mem, rfl⟩

theorem mkAddNode_key {a : TypeToAdd} (hb : a.blockId ≠ "") (he : a.blockEntityType ≠ "") :
    nodeBlockKey (mkAddNode a) = ⟨a.blockId, a.blockEntityType⟩ :=
  nodeBlockKey_addedNode a.typeName a.blockType a.blockId a.blockEntityType hb he

theorem add_props {blocks : List BlockInfo} {ast : ParserTree} {a : TypeToAdd}
    (_hbwf : blocks.all blockWF = true)
    (ha : a ∈ (computePlan blocks ast).typesToAdd) :
    ∃ b' e', b' ∈ blocks ∧ e' ∈ getBlockTypeEntries b' ∧
      a = ⟨e'.typeName, b'.type, b'.id, e'.blockEntityType⟩ ∧ lookupEntry b' ast e' = none := by
  obtain ⟨b', hb', e', he', hadd⟩ := mem_plan_adds.mp ha
  obtain ⟨hnone, haeq⟩ := addOfEntry_eq_some hadd
  exact ⟨b', e', hb', he', haeq, hnone⟩

theorem entry_target_name {blocks : List BlockInfo} {ast : ParserTree}
    (hg : SyncGuard ast blocks)
    {b : BlockInfo} {e : TypeEntry} (hb : b ∈ blocks) (he : e ∈ getBlockTypeEntries b) :
    ∀ x ∈ entryNodes (applyChangePlan ast (computePlan blocks ast)) b.id e.blockEntityType,
      x.name = e.typeName := by
  obtain ⟨hwf, hbwf, hnames, hkeys, hids, hchain, hreq⟩ := hg
  have hbid : b.id ≠ "" := nameWF_ne_empty (blockWF_id_nameWF (List.all_eq_true.mp hbwf b hb))
  have hety : e.blockEntityType ≠ "" := entries_ety_ne_empty he
  intro x hx
  obtain ⟨hxmem, hxk, hxb, hxe⟩ := mem_entryNodes.mp hx
  rw [applyChangePlan_nodes] at hxmem
  have hxmem2 := (List.mem_filter.mp hxmem).1
  rcases List.mem_append.mp hxmem2 with hleft | hright
  · obtain ⟨nd, hnd, rfl⟩ := List.mem_map.mp hleft
    have hkey := nodeBlockKey_renChain (computePlan blocks ast).typesToRename nd
    have hndk : isTargetTypeKind nd.kind = true := by
      rw [← renChain_kind (computePlan blocks ast).typesToRename nd]
      exact hxk
    have hndb : (nodeBlockKey nd).blockId = b.id := by
      rw [← hkey]
      exact hxb
    have hnde : (nodeBlockKey nd).blockEntityType = e.blockEntityType := by
      rw [← hkey]
      exact hxe
    cases hlk : lookupEntry b ast e with
    | none =>
      have hnil := lookupEntry_none_nil hbid hety hlk
      have hmem := mem_entryNodes.mpr ⟨hnd, hndk, hndb, hnde⟩
      rw [hnil] at hmem
      cases hmem
    | some m =>
      have hndm : nd = m := matched_eq hkeys hbid hety hlk hnd hndk hndb hnde
      rw [renChain_name, hndm]
      exact matched_renChain_name hbwf hnames hkeys hids hchain hb he hlk
  · obtain ⟨a, ha, rfl⟩ := List.mem_map.mp hright
    obtain ⟨b', e', hb', he', haeq, hnone⟩ := add_props hbwf ha
    have hbid2 : b'.id ≠ "" := nameWF_ne_empty (blockWF_id_nameWF (List.all_eq_true.mp hbwf b' hb'))
    have hety2 : e'.blockEntityType ≠ "" := entries_ety_ne_empty he'
    have hdec : nodeBlockKey (mkAddNode a) = ⟨a.blockId, a.blockEntityType⟩ := by
      apply mkAddNode_key
      · rw [haeq]
        exact hbid2
      · rw [haeq]
        exact hety2
    have hab : a.blockId = b.id := by
      rw [hdec] at hxb
      exact hxb
    have hae : a.blockEntityType = e.blockEntityType := by
      rw [hdec] at hxe
      exact hxe
    have hbb : b' = b := by
      apply blocks_id_inj hids hb' hb
      rw [haeq] at hab
      exact hab
    subst hbb
    have hee : e' = e := by
      apply entries_ety_inj he' he
      rw [haeq] at hae
      exact hae
    subst hee
    rw [haeq]
    rfl

theorem entry_target_exists {blocks : List BlockInfo} {ast : ParserTree}
    (hg : SyncGuard ast blocks)
    {b : BlockInfo} {e : TypeEntry} (hb : b ∈ blocks) (he : e ∈ getBlockTypeEntries b) :
    entryNodes (applyChangePlan ast (computePlan blocks ast)) b.id e.blockEntityType ≠ [] := by
  obtain ⟨hwf, hbwf, hnames, hkeys, hids, hchain, hreq⟩ := hg
  have hbid : b.id ≠ "" := nameWF_ne_empty (blockWF_id_nameWF (List.all_eq_true.mp hbwf b hb))
  have hety : e.blockEntityType ≠ "" := entries_ety_ne_empty he
  have hkeep : ∀ y : Node, y.name = e.typeName →
      keepAfter (computePlan blocks ast).typesToRemove y = true := by
    intro y hy
    unfold keepAfter
    rw [List.all_eq_true]
    intro t ht
    have hneq : e.typeName ≠ t := fun hc => (hreq t ht) (hc ▸ entries_name_required hb he)
    simp [hy, hneq]
  cases hlk : lookupEntry b ast e with
  | some m =>
    obtain ⟨hmm, hmk, hmb, hme⟩ := lookupEntry_some_mem hbid hety hlk
    apply List.ne_nil_of_mem (a := renChain (computePlan blocks ast).typesToRename m)
    apply mem_entryNodes.mpr
    refine ⟨?_, ?_, ?_, ?_⟩
    · rw [applyChangePlan_nodes]
      apply List.mem_filter.mpr
      constructor
      · exact List.mem_append_left _ (List.mem_map_of_mem _ hmm)
      · apply hkeep
        rw [renChain_name]
        exact matched_renChain_name hbwf hnames hkeys hids hchain hb he hlk
    · rw [renChain_kind]
      exact hmk
    · rw [nodeBlockKey_renChain]
      exact hmb
    · rw [nodeBlockKey_renChain]
      exact hme
  | none =>
    have hadd := addOfEntry_of_none hlk
    have hamem : (⟨e.typeName, b.type, b.id, e.blockEntityType⟩ : TypeToAdd) ∈
        (computePlan blocks ast).typesToAdd :=
      mem_plan_adds.mpr ⟨b, hb, e, he, hadd⟩
    apply List.ne_nil_of_mem
      (a := mkAddNode ⟨e.typeName, b.type, b.id, e.blockEntityType⟩)
    apply mem_entryNodes.mpr
    have hdec : nodeBlockKey (mkAddNode ⟨e.typeName, b.type, b.id, e.blockEntityType⟩) =
        ⟨b.id, e.blockEntityType⟩ := mkAddNode_key hbid hety
    refine ⟨?_, ?_, ?_, ?_⟩
    · rw [applyChangePlan_nodes]
      apply List.mem_filter.mpr
      constructor
      · exact List.mem_append_right _ (List.mem_map_of_mem _ hamem)
      · exact hkeep _ rfl
    · rfl
    · rw [hdec]
    · rw [hdec]

theorem flatten_eq_nil_of {α : Type} {L : List (List α)} (h : ∀ l ∈ L, l = []) :
    L.flatten = [] := by
  induction L with
  | nil => rfl
  | cons l t ih =>
    rw [List.flatten_cons, h l (List.mem_cons_self l t), List.nil_append]
    exact ih (fun l2 hl2 => h l2 (List.mem_cons_of_mem _ hl2))

theorem filterMap_eq_nil_of {α β : Type} {f : α → Option β} {l : List α}
    (h : ∀ a ∈ l, f a = none) : l.filterMap f = [] := by
  induction l with
  | nil => rfl
  | cons x t ih =>
    rw [List.filterMap_cons, h x (List.mem_cons_self x t)]
    exact ih (fun a ha => h a (List.mem_cons_of_mem _ ha))

theorem orphans_nil {blocks : List BlockInfo} {ast : ParserTree} (hg : SyncGuard ast blocks) :
    findOrphanedTypes (applyChangePlan ast (computePlan blocks ast)) blocks = [] := by
  obtain ⟨hwf, hbwf, hnames, hkeys, hids, hchain, hreq⟩ := hg
  unfold findOrphanedTypes
  simp only [List.filter_eq_nil_iff]
  intro x hx hpred
  simp only [Bool.and_eq_true, decide_eq_true_eq] at hpred
  obtain ⟨htk, hbne, hnotin⟩ := hpred
  rw [applyChangePlan_nodes] at hx
  have hx1 := (List.mem_filter.mp hx).1
  have hkeepx := (List.mem_filter.mp hx).2
  rcases List.mem_append.mp hx1 with hleft | hright
  · obtain ⟨nd, hnd, rfl⟩ := List.mem_map.mp hleft
    have hdec := nodeBlockKey_renChain (computePlan blocks ast).typesToRename nd
    have hndk : isTargetTypeKind nd.kind = true := by
      rw [← renChain_kind (computePlan blocks ast).typesToRename nd]
      exact htk
    have hndorph : nd ∈ findOrphanedTypes ast blocks := by
      unfold findOrphanedTypes
      apply List.mem_filter.mpr
      refine ⟨hnd, ?_⟩
      simp only [Bool.and_eq_true, decide_eq_true_eq]
      refine ⟨hndk, ?_, ?_⟩
      · rw [← hdec]
        exact hbne
      · rw [← hdec]
        exact hnotin
    have hnamein : nd.name ∈ (computePlan blocks ast).typesToRemove := by
      rw [computePlan_rems]
      exact List.mem_map_of_mem _ hndorph
    have hstable : (renChain (computePlan blocks ast).typesToRename nd).name = nd.name := by
      rw [renChain_name]
      apply renChainName_stable
      intro r hr hcontra
      obtain ⟨b', e', m', hb', he', hm'mem, hm'k, hm'bid, hm'ety, holdn, _, _, _⟩ :=
        ren_oldName_node hbwf hr
      have hm'nd : m' = nd := name_inj hnames hm'mem hnd (by rw [← holdn, hcontra])
      subst hm'nd
      apply hnotin
      rw [hdec, hm'bid]
      exact List.mem_map_of_mem _ hb'
    unfold keepAfter at hkeepx
    have hbad := List.all_eq_true.mp hkeepx nd.name hnamein
    rw [hstable] at hbad
    simp at hbad
  · obtain ⟨a, ha, rfl⟩ := List.mem_map.mp hright
    obtain ⟨b', e', hb', he', haeq, _⟩ := add_props hbwf ha
    have hbid2 : b'.id ≠ "" := nameWF_ne_empty (blockWF_id_nameWF (List.all_eq_true.mp hbwf b' hb'))
    have hety2 : e'.blockEntityType ≠ "" := entries_ety_ne_empty he'
    have hdec : nodeBlockKey (mkAddNode a) = ⟨a.blockId, a.blockEntityType⟩ := by
      apply mkAddNode_key
      · rw [haeq]
        exact hbid2
      · rw [haeq]
        exact hety2
    apply hnotin
    rw [hdec, haeq]
    exact List.mem_map_of_mem _ hb'

theorem lookup_after {blocks : List BlockInfo} {ast : ParserTree} (hg : SyncGuard ast blocks)
    {b : BlockInfo} {e : TypeEntry} (hb : b ∈ blocks) (he : e ∈ getBlockTypeEntries b) :
    ∃ nd, lookupEntry b (applyChangePlan ast (computePlan blocks ast)) e = some nd ∧
      nd.name = e.typeName := by
  have hbid : b.id ≠ "" :=
    nameWF_ne_empty (blockWF_id_nameWF (List.all_eq_true.mp hg.2.1 b hb))
  have hety : e.blockEntityType ≠ "" := entries_ety_ne_empty he
  rw [lookupEntry_eq b _ e hbid hety]
  obtain ⟨nd, hnd⟩ := getLast?_of_ne_nil (entry_target_exists hg hb he)
  exact ⟨nd, hnd, entry_target_name hg hb he nd (mem_of_getLast?_eq hnd)⟩

theorem plan2_empty {blocks : List BlockInfo} {ast : ParserTree} (hg : SyncGuard ast blocks) :
    computePlan blocks (applyChangePlan ast (computePlan blocks ast)) = emptyPlan := by
  have hperblock : ∀ b ∈ blocks, ∀ e ∈ getBlockTypeEntries b,
      addOfEntry b (applyChangePlan ast (computePlan blocks ast)) e = none ∧
      renOfEntry b (applyChangePlan ast (computePlan blocks ast)) e = none := by
    intro b hb e he
    obtain ⟨nd, hnd, hname⟩ := lookup_after hg hb he
    exact ⟨addOfEntry_of_some hnd, renOfEntry_of_match hnd hname⟩
  have hadds : (computePlan blocks (applyChangePlan ast (computePlan blocks ast))).typesToAdd = [] := by
    rw [computePlan_adds]
    apply flatten_eq_nil_of
    intro l hl
    obtain ⟨b, hb, rfl⟩ := List.mem_map.mp hl
    exact filterMap_eq_nil_of (fun e he => (hperblock b hb e he).1)
  have hrens : (computePlan blocks (applyChangePlan ast (computePlan blocks ast))).typesToRename = [] := by
    rw [computePlan_rens]
    apply flatten_eq_nil_of
    intro l hl
    obtain ⟨b, hb, rfl⟩ := List.mem_map.mp hl
    exact filterMap_eq_nil_of (fun e he => (hperblock b hb e he).2)
  have hrems : (computePlan blocks (applyChangePlan ast (computePlan blocks ast))).typesToRemove = [] := by
    rw [computePlan_rems, orphans_nil hg]
    rfl
  have hfin : emptyPlan =
      (⟨(computePlan blocks (applyChangePlan ast (computePlan blocks ast))).typesToAdd,
        (computePlan blocks (applyChangePlan ast (computePlan blocks ast))).typesToRename,
        (computePlan blocks (applyChangePlan ast (computePlan blocks ast))).typesToRemove⟩ :
        SchemaChangePlan) := by
    rw [hadds, hrens, hrems]
    rfl
  exact hfin.symm

theorem ident_no_quote {s : String} (h : s.data.all isIdentChar = true) :
    s.data.all (fun c => !(c = '"')) = true := by
  rw [List.all_eq_true] at h ⊢
  intro c hc
  have hic := h c hc
  by_cases he : c = '"'
  · subst he
    exact absurd hic (by decide)
  · simp [he]

theorem nameWF_no_quote {s : String} (h : nameWF s = true) :
    s.data.all (fun c => !(c = '"')) = true := by
  simp only [nameWF, Bool.and_eq_true] at h
  exact ident_no_quote h.2

theorem valueWF_quoteStr {s : String} (h : s.data.all (fun c => !(c = '"')) = true) :
    valueWF (quoteStr s) = true := by
  have hdata : (quoteStr s).data = '"' :: (s.data ++ ['"']) := by
    show (("\"" ++ s) ++ "\"").data = _
    rw [strData_append, strData_append]
    rfl
  unfold valueWF
  rw [hdata]
  simp [List.getLast?_concat, List.dropLast_concat, h]

theorem nodeWF_renameNodeFun (o n : String) (nd : Node) (hn : nameWF n = true)
    (h : nodeWF nd = true) : nodeWF (renameNodeFun o n nd) = true := by
  simp only [nodeWF, Bool.and_eq_true] at h
  unfold renameNodeFun
  by_cases hno : nd.name = o
  · rw [if_pos hno]
    simp only [nodeWF, Bool.and_eq_true]
    exact ⟨⟨⟨hn, h.1.1.2⟩, h.1.2⟩, h.2⟩
  · rw [if_neg hno]
    simp only [nodeWF, Bool.and_eq_true]
    refine ⟨⟨⟨h.1.1.1, ?_⟩, h.1.2⟩, ?_⟩
    · rw [List.all_eq_true]
      intro f hf
      obtain ⟨g, hg, rfl⟩ := List.mem_map.mp hf
      have hgwf := List.all_eq_true.mp h.1.1.2 g hg
      unfold updateFieldTypeReferences
      by_cases hb : getTypeName g.type = o
      · rw [if_pos hb]
        simp only [fieldWF, Bool.and_eq_true] at hgwf ⊢
        exact ⟨hgwf.1, hn⟩
      · rw [if_neg hb]
        exact hgwf
    · cases hnf : nd.fields with
      | nil => simp [hnf]
      | cons f t =>
        have h2 := h.2
        rw [hnf] at h2
        simp at h2
        simp [hnf, h2]

theorem nodeWF_renChain (rens : List TypeToRename) (nd : Node)
    (hrens : ∀ r ∈ rens, nameWF r.newName = true) (h : nodeWF nd = true) :
    nodeWF (renChain rens nd) = true := by
  induction rens generalizing nd with
  | nil => exact h
  | cons r t ih =>
    show nodeWF (renChain t (renameNodeFun r.oldName r.newName nd)) = true
    apply ih
    · exact fun r2 hr2 => hrens r2 (List.mem_cons_of_mem _ hr2)
    · exact nodeWF_renameNodeFun _ _ _ (hrens r (List.mem_cons_self r t)) h

theorem nodeWF_addedNode (tn bt bid ety : String) (htn : nameWF tn = true)
    (hbid : nameWF bid = true) (hbt : bt.data.all (fun c => !(c = '"')) = true)
    (hety : ety = BLOCK_ENTITY_INPUT ∨ ety = BLOCK_ENTITY_RESULT ∨ ety = BLOCK_ENTITY_BLOCK) :
    nodeWF (addedNode tn bt bid ety) = true := by
  have hbidq : bid.data.all (fun c => !(c = '"')) = true := nameWF_no_quote hbid
  have hetyq : ety.data.all (fun c => !(c = '"')) = true := by
    rcases hety with rfl | rfl | rfl <;> decide
  have hcomp : (compositeNodeId bid ety).data.all (fun c => !(c = '"')) = true := by
    unfold compositeNodeId
    rcases hety with rfl | rfl | rfl
    · rw [if_neg (by decide), if_pos (by decide), strData_append, List.all_append, hbidq]
      decide
    · rw [if_neg (by decide), if_neg (by decide), strData_append, List.all_append, hbidq]
      decide
    · rw [if_pos rfl]
      exact hbidq
  unfold addedNode
  simp only [nodeWF, Bool.and_eq_true]
  refine ⟨⟨⟨htn, ?_⟩, ?_⟩, ?_⟩
  · by_cases hb : bt = "event"
    · rw [if_pos hb]
      decide
    · rw [if_neg hb]
      decide
  · rw [List.all_eq_true]
    intro d hd
    simp at hd
    subst hd
    simp only [directiveWF, Bool.and_eq_true]
    refine ⟨by decide, ?_⟩
    rw [List.all_eq_true]
    intro a ha
    simp at ha
    rcases ha with rfl | rfl | rfl | rfl | rfl
    · exact (by simp only [argWF, Bool.and_eq_true]; exact ⟨by decide, valueWF_quoteStr hcomp⟩)
    · exact (by simp only [argWF, Bool.and_eq_true]; exact ⟨by decide, valueWF_quoteStr hbt⟩)
    · exact (by simp only [argWF, Bool.and_eq_true]; exact ⟨by decide, valueWF_quoteStr hbidq⟩)
    · exact (by simp only [argWF, Bool.and_eq_true]; exact ⟨by decide, valueWF_quoteStr hetyq⟩)
    · decide
  · rfl

theorem treeWF_applyChangePlan {blocks : List BlockInfo} {ast : ParserTree}
    (hg : SyncGuard ast blocks) :
    treeWF (applyChangePlan ast (computePlan blocks ast)) = true := by
  obtain ⟨hwf, hbwf, hnames, hkeys, hids, hchain, hreq⟩ := hg
  unfold treeWF
  rw [applyChangePlan_nodes, List.all_eq_true]
  intro x hx
  have hx1 := (List.mem_filter.mp hx).1
  rcases List.mem_append.mp hx1 with hleft | hright
  · obtain ⟨nd, hnd, rfl⟩ := List.mem_map.mp hleft
    apply nodeWF_renChain
    · intro r hr
      obtain ⟨b', e', m', hb', he', _, _, _, _, _, hnewn, _, _⟩ := ren_oldName_node hbwf hr
      rw [hnewn]
      exact blockWF_entry_nameWF (List.all_eq_true.mp hbwf b' hb') he'
    · exact List.all_eq_true.mp hwf nd hnd
  · obtain ⟨a, ha, rfl⟩ := List.mem_map.mp hright
    obtain ⟨b', e', hb', he', haeq, _⟩ := add_props hbwf ha
    have hbwf2 := List.all_eq_true.mp hbwf b' hb'
    show nodeWF (addedNode a.typeName a.blockType a.blockId a.blockEntityType) = true
    apply nodeWF_addedNode
    · rw [haeq]
      exact blockWF_entry_nameWF hbwf2 he'
    · rw [haeq]
      exact blockWF_id_nameWF hbwf2
    · rw [haeq]
      exact blockWF_type_quotefree hbwf2
    · rw [haeq]
      exact entries_ety_values he'

theorem parse_generate (ast : ParserTree) (h : treeWF ast = true) :
    parseSchemaToAST (generateSchemaFromAST ast) = Except.ok ast := by
  have hload : nodesLoad ast.nodes ≤ ((ast.nodes.map serializeNodeChars).flatten).length + 1 :=
    nodesLoad_le ast.nodes h
  have hparse : parseNodes ((generateSchemaFromAST ast).data.length + 1)
      (generateSchemaFromAST ast).data = some (ast.nodes, []) := by
    show parseNodes (((ast.nodes.map serializeNodeChars).flatten).length + 1)
        ((ast.nodes.map serializeNodeChars).flatten) = some (ast.nodes, [])
    exact parseNodes_serialize ast.nodes _ h hload
  unfold parseSchemaToAST
  rw [hparse]

theorem sync_writes (blocks : List BlockInfo) (st : SchemaProviderState) (ast : ParserTree)
    (hp : parseSchemaToAST st.schema.code = Except.ok ast)
    (hc : 0 < (computePlan blocks ast).typesToAdd.length ∨
      0 < (computePlan blocks ast).typesToRename.length ∨
      0 < (computePlan blocks ast).typesToRemove.length) :
    syncSchemaWithBlocks blocks st =
      ⟨⟨generateSchemaFromAST (applyChangePlan ast (computePlan blocks ast)), none, "outside"⟩,
        none⟩ := by
  unfold syncSchemaWithBlocks
  rw [hp]
  show (if 0 < (computePlan blocks ast).typesToAdd.length ∨
        0 < (computePlan blocks ast).typesToRename.length ∨
        0 < (computePlan blocks ast).typesToRemove.length then
      updateSchema ⟨generateSchemaFromAST (applyChangePlan ast (computePlan blocks ast)),
        none, "outside"⟩ st
    else st) = _
  rw [if_pos hc]
  rfl

theorem sync_no_change (blocks : List BlockInfo) (st : SchemaProviderState) (ast : ParserTree)
    (hp : parseSchemaToAST st.schema.code = Except.ok ast)
    (hempty : computePlan blocks ast = emptyPlan) :
    syncSchemaWithBlocks blocks st = st := by
  unfold syncSchemaWithBlocks
  rw [hp]
  show (if 0 < (computePlan blocks ast).typesToAdd.length ∨
        0 < (computePlan blocks ast).typesToRename.length ∨
        0 < (computePlan blocks ast).typesToRemove.length then
      updateSchema ⟨generateSchemaFromAST (applyChangePlan ast (computePlan blocks ast)),
        none, "outside"⟩ st
    else st) = st
  rw [if_neg (by rw [hempty]; decide)]

theorem plan_eq_empty_of_lengths {plan : SchemaChangePlan}
    (hc : ¬(0 < plan.typesToAdd.length ∨ 0 < plan.typesToRename.length ∨
      0 < plan.typesToRemove.length)) :
    plan = emptyPlan := by
  push_neg at hc
  obtain ⟨h1, h2, h3⟩ := hc
  have e1 : plan.typesToAdd = [] := List.eq_nil_of_length_eq_zero (by omega)
  have e2 : plan.typesToRename = [] := List.eq_nil_of_length_eq_zero (by omega)
  have e3 : plan.typesToRemove = [] := List.eq_nil_of_length_eq_zero (by omega)
  have hfin : emptyPlan =
      (⟨plan.typesToAdd, plan.typesToRename, plan.typesToRemove⟩ : SchemaChangePlan) := by
    rw [e1, e2, e3]
    rfl
  exact hfin.symm

/-- C1 (amended): under the side conditions of `SyncGuard` — a well-formed held
document with distinct type names and distinct managed (blockId, entityType)
keys, well-formed blocks with distinct ids, no rename target colliding with a
rename source, and no removal of a required type name — one sync settles the
document: the plan recomputed on the synced document is empty, and a second
sync with the same blocks leaves the stored state (hence the document text)
byte-identical.  The unguarded claim is refuted by
`C1_counterexample_two_syncs_differ`. -/
theorem C1_sync_idempotent_under_guard (blocks : List BlockInfo) (st : SchemaProviderState)
    (ast : ParserTree)
    (hparse : parseSchemaToAST st.schema.code = Except.ok ast)
    (hg : SyncGuard ast blocks) :
    computePlan blocks (applyChangePlan ast (computePlan blocks ast)) = emptyPlan ∧
    syncSchemaWithBlocks blocks (syncSchemaWithBlocks blocks st) =
      syncSchemaWithBlocks blocks st := by
  refine ⟨plan2_empty hg, ?_⟩
  by_cases hc : 0 < (computePlan blocks ast).typesToAdd.length ∨
      0 < (computePlan blocks ast).typesToRename.length ∨
      0 < (computePlan blocks ast).typesToRemove.length
  · have h1 := sync_writes blocks st ast hparse hc
    have hp2 : parseSchemaToAST (syncSchemaWithBlocks blocks st).schema.code =
        Except.ok (applyChangePlan ast (computePlan blocks ast)) := by
      rw [h1]
      exact parse_generate _ (treeWF_applyChangePlan hg)
    exact sync_no_change blocks _ _ hp2 (plan2_empty hg)
  · have h1 := sync_no_change blocks st ast hparse (plan_eq_empty_of_lengths hc)
    rw [h1]
    exact h1

set_option maxRecDepth 100000 in
/-- C1 counterexample: with one active event block b1 titled "Foo" and a held
document containing a managed type `Foo` of b1, an orphaned managed type also
named `Foo` (from a deleted block), and an untouched user type, the first sync
removes both `Foo` nodes (removal is by name), so the second sync re-adds
`Foo`: the stored document changes again on the second invocation. -/
theorem C1_counterexample_two_syncs_differ :
    (syncSchemaWithBlocks [⟨"b1", "Foo", "event"⟩]
        (syncSchemaWithBlocks [⟨"b1", "Foo", "event"⟩]
          (stWith [exFooActive, exFooOrphan, exKeep]))).schema.code ≠
      (syncSchemaWithBlocks [⟨"b1", "Foo", "event"⟩]
        (stWith [exFooActive, exFooOrphan, exKeep])).schema.code := by
  decide

set_option maxRecDepth 100000 in
theorem C1_sync_idempotent_under_guard_witness :
    parseSchemaToAST ((stWith [exCheckout]).schema.code) = Except.ok ⟨[exCheckout]⟩ ∧
    SyncGuard ⟨[exCheckout]⟩ [⟨"b1", "Checkout", "event"⟩] ∧
    (computePlan [⟨"b1", "Checkout", "event"⟩]
        (applyChangePlan ⟨[exCheckout]⟩
          (computePlan [⟨"b1", "Checkout", "event"⟩] ⟨[exCheckout]⟩)) = emptyPlan ∧
      syncSchemaWithBlocks [⟨"b1", "Checkout", "event"⟩]
          (syncSchemaWithBlocks [⟨"b1", "Checkout", "event"⟩] (stWith [exCheckout])) =
        syncSchemaWithBlocks [⟨"b1", "Checkout", "event"⟩] (stWith [exCheckout])) :=
  ⟨by decide, by decide,
    C1_sync_idempotent_under_guard [⟨"b1", "Checkout", "event"⟩] (stWith [exCheckout])
      ⟨[exCheckout]⟩ (by decide) (by decide)⟩

end EventModeling
